import Mathlib

/-!
# Verification of the `how2fps/fuzzer` core against its specification

Shallow embedding, in Lean 4, of the parts of the fuzzer that the checked
claims are about:

* `power_scheduler/core.py` — AFL-style energy allocation;
* `seed_corpus/corpus.py` — largest-remainder bucket planning and ratio
  batch sampling;
* `isinteresting/versions/base.py` — the interestingness scorer;
* `mutator/mutator.py` — byte-level mutators and grammar expansion;
* `seed_scheduler/{queue,heap,ucb_tree}_scheduler.py` — the schedulers.

Python floats are modelled by `ℚ` (every arithmetic operation the embedded
code performs is exact on the inputs at issue), machine integers by
`Int`/`Nat`, fallible code by `Option`/`Except`, and the pseudo-random
generator by an oracle: a stream `Nat → Nat` of draws together with a
cursor, from which `random.randrange`/`random.choice` style picks are taken
by reduction modulo the number of alternatives.  Quantifying over all
streams covers every behaviour the Python RNG can exhibit.
-/

attribute [local semireducible] Rat.mul Rat.add Rat.inv Rat.sub Rat.ofScientific

namespace Fuzzer

/-- Python `int(x)` on a non-negative or negative rational: truncation
toward zero. -/
def pyTrunc (q : ℚ) : Int :=
  if q < 0 then -⌊-q⌋ else ⌊q⌋

/-- Lexicographic comparison of character lists by code point, the order
Python uses on `str`. -/
def charListLt : List Char → List Char → Bool
  | [], [] => false
  | [], _ :: _ => true
  | _ :: _, [] => false
  | c :: cs, d :: ds =>
    if c.toNat < d.toNat then true
    else if d.toNat < c.toNat then false
    else charListLt cs ds

/-- Python `<` on strings: code-point lexicographic. -/
def strLt (a b : String) : Bool := charListLt a.toList b.toList

/-! ## Power scheduler (`src/power_scheduler/core.py`) -/

namespace Power

/-- Per-seed statistics handed to the power scheduler.  The Python
`SeedStats` TypedDict carries `id`, `exec_time_ms`, `coverage_bitmap` and
`fuzz_count`; the controller (`main.py`) additionally attaches
`avg_isinteresting_score` and `bug_count`, which the TypedDict tolerates. -/
structure SeedStats where
  id : Int
  execTimeMs : Option ℚ := none
  coverageBitmap : Option (List Nat) := none
  fuzzCount : Nat := 0
  avgInterestingScore : Option ℚ := none
  bugCount : Nat := 0
deriving Repr, DecidableEq

/-- `ScheduleConfig`: optional overrides of the two energy bounds
(defaults `min_energy = 1`, `max_energy = 128`). -/
structure ScheduleConfig where
  minEnergy : Option Int := none
  maxEnergy : Option Int := none
deriving Repr, DecidableEq

/-- Effective `min_energy` after `max(int(cfg.get("min_energy", 1)), 1)`. -/
def effMinEnergy (cfg : ScheduleConfig) : Int :=
  max (cfg.minEnergy.getD 1) 1

/-- Effective `max_energy` after `max(int(cfg.get("max_energy", 128)), min_energy)`. -/
def effMaxEnergy (cfg : ScheduleConfig) : Int :=
  max (cfg.maxEnergy.getD 128) (effMinEnergy cfg)

/-- `compute_edge_frequencies`: per-index count of set bitmap entries,
over the longest bitmap length present. -/
def computeEdgeFrequencies (seeds : List SeedStats) : List Nat :=
  let maxLen := seeds.foldl
    (fun acc s => match s.coverageBitmap with
      | none => acc
      | some b => max acc b.length) 0
  if maxLen = 0 then []
  else
    seeds.foldl
      (fun freqs s => match s.coverageBitmap with
        | none => freqs
        | some b =>
          (List.range maxLen).map
            (fun idx =>
              (freqs.getD idx 0) +
                (if idx < b.length ∧ b.getD idx 0 ≠ 0 then 1 else 0)))
      (List.replicate maxLen 0)

/-- `_compute_seed_weight`: the seed statistics are deliberately unused
("unused but kept for future extensions"); the weight is uniformly `1.0`. -/
def computeSeedWeight (_seed : SeedStats) : ℚ := 1

/-- Result record of `compute_power_schedule`. -/
structure PowerScheduleResult where
  seedEnergies : List (Int × Int)
  edgeFrequencies : List Nat
  config : ScheduleConfig
  totalWeight : ℚ
deriving Repr, DecidableEq

/-- Insert-or-overwrite into an association list, mirroring Python dict
assignment order. -/
def assocSet {α β : Type} [DecidableEq α] : List (α × β) → α → β → List (α × β)
  | [], k, v => [(k, v)]
  | (k', v') :: rest, k, v =>
    if k' = k then (k, v) :: rest else (k', v') :: assocSet rest k v

/-- `compute_power_schedule` (src/power_scheduler/core.py lines 71–123). -/
def computePowerSchedule (seeds : List SeedStats) (config : Option ScheduleConfig) :
    PowerScheduleResult :=
  let effectiveConfig : ScheduleConfig :=
    match config with
    | none => {}
    | some c => c
  if seeds.isEmpty then
    { seedEnergies := [], edgeFrequencies := [], config := effectiveConfig,
      totalWeight := 0 }
  else
    let minEnergy := effMinEnergy effectiveConfig
    let maxEnergy := effMaxEnergy effectiveConfig
    let edgeFrequencies := computeEdgeFrequencies seeds
    let weights0 := seeds.map (fun s => max (computeSeedWeight s) 0)
    let weights := if weights0.any (fun w => decide (0 < w)) then weights0
      else List.replicate seeds.length 1
    let totalWeight0 : ℚ := weights.sum
    let totalWeight : ℚ := if totalWeight0 ≤ 0 then (weights.length : ℚ) else totalWeight0
    let avgEnergy : ℚ := ((minEnergy : ℚ) + (maxEnergy : ℚ)) / 2
    let currentMeanWeight : ℚ := totalWeight / (weights.length : ℚ)
    let scale : ℚ := if currentMeanWeight ≤ 0 then 1 else avgEnergy / currentMeanWeight
    let seedEnergies :=
      (seeds.zip weights).foldl
        (fun acc sw =>
          let rawEnergy := sw.2 * scale
          let energy0 := pyTrunc rawEnergy
          let energy1 := if energy0 < minEnergy then minEnergy else energy0
          let energy2 := if energy1 > maxEnergy then maxEnergy else energy1
          assocSet acc sw.1.id energy2)
        []
    { seedEnergies := seedEnergies, edgeFrequencies := edgeFrequencies,
      config := effectiveConfig, totalWeight := totalWeight }

lemma mem_assocSet {α β : Type} [DecidableEq α] (k : α) (v : β) (p : α × β) :
    ∀ l : List (α × β), p ∈ assocSet l k v → p ∈ l ∨ p = (k, v) := by
  intro l
  induction l with
  | nil => intro hp; right; simpa [assocSet] using hp
  | cons hd tl ih =>
    rcases hd with ⟨k', v'⟩
    intro hp
    simp only [assocSet] at hp
    by_cases h : k' = k
    · rw [if_pos h] at hp
      rcases List.mem_cons.mp hp with h1 | h1
      · right; exact h1
      · left; exact List.mem_cons_of_mem _ h1
    · rw [if_neg h] at hp
      rcases List.mem_cons.mp hp with h1 | h1
      · left; rw [h1]; exact List.mem_cons_self _ _
      · rcases ih h1 with h2 | h2
        · left; exact List.mem_cons_of_mem _ h2
        · right; exact h2

lemma foldl_assocSet_values {α β γ : Type} [DecidableEq α] (P : β → Prop)
    (f : γ → α) (g : γ → β) :
    ∀ (xs : List γ) (acc : List (α × β)),
      (∀ p ∈ acc, P p.2) → (∀ x ∈ xs, P (g x)) →
      ∀ p ∈ xs.foldl (fun a x => assocSet a (f x) (g x)) acc, P p.2 := by
  intro xs
  induction xs with
  | nil => intro acc hacc _ p hp; exact hacc p hp
  | cons hd tl ih =>
    intro acc hacc hg p hp
    simp only [List.foldl_cons] at hp
    refine ih (assocSet acc (f hd) (g hd)) ?_ ?_ p hp
    · intro q hq
      rcases mem_assocSet (f hd) (g hd) q acc hq with h | h
      · exact hacc q h
      · rw [h]; exact hg hd (List.mem_cons_self _ _)
    · intro x hx; exact hg x (List.mem_cons_of_mem _ hx)

/-- The uniform energy value every seed receives: the truncated midpoint of
the energy range, clamped into `[min_energy, max_energy]`. -/
def uniformEnergy (cfg : ScheduleConfig) : Int :=
  let minEnergy := effMinEnergy cfg
  let maxEnergy := effMaxEnergy cfg
  let e0 := pyTrunc (((minEnergy : ℚ) + (maxEnergy : ℚ)) / 2)
  let e1 := if e0 < minEnergy then minEnergy else e0
  if e1 > maxEnergy then maxEnergy else e1

lemma computeSeedWeight_map (seeds : List SeedStats) :
    seeds.map (fun s => max (computeSeedWeight s) 0) =
      List.replicate seeds.length 1 := by
  have h : (fun (s : SeedStats) => max (computeSeedWeight s) 0) = fun _ => (1 : ℚ) := by
    funext s; simp [computeSeedWeight]
  rw [h]
  exact List.map_const' seeds 1

/-- Characterization of `compute_power_schedule` on a non-empty seed list:
because `_compute_seed_weight` ignores the statistics, every seed is
assigned the same clamped midpoint energy. -/
lemma computePowerSchedule_some_energies (seeds : List SeedStats)
    (cfg : ScheduleConfig) (h : seeds ≠ []) :
    ∀ p ∈ (computePowerSchedule seeds (some cfg)).seedEnergies,
      p.2 = uniformEnergy cfg := by
  intro p hp
  have hne : seeds.isEmpty = false := by
    cases seeds with
    | nil => exact absurd rfl h
    | cons a l => simp
  have hlen : 0 < seeds.length := by
    cases seeds with
    | nil => exact absurd rfl h
    | cons a l => simp
  have hlen0 : (seeds.length : ℚ) ≠ 0 := Nat.cast_ne_zero.mpr hlen.ne'
  -- unfold the schedule computation
  simp only [computePowerSchedule, hne, Bool.false_eq_true, if_false,
    computeSeedWeight_map] at hp
  simp only [ite_self] at hp
  have hsum : (List.replicate seeds.length (1 : ℚ)).sum = (seeds.length : ℚ) := by
    simp [List.sum_replicate]
  rw [hsum] at hp
  have hnotle : ¬ ((seeds.length : ℚ) ≤ 0) := by
    push_neg; exact_mod_cast hlen
  rw [if_neg hnotle] at hp
  rw [List.length_replicate] at hp
  have hmean : (seeds.length : ℚ) / (seeds.length : ℚ) = 1 := div_self hlen0
  rw [hmean] at hp
  have hnotle1 : ¬ ((1 : ℚ) ≤ 0) := by norm_num
  rw [if_neg hnotle1, div_one] at hp
  -- now every zipped weight is 1, so every inserted energy is the uniform one
  refine foldl_assocSet_values (fun v => v = uniformEnergy cfg)
    (fun sw : SeedStats × ℚ => sw.1.id)
    (fun sw : SeedStats × ℚ =>
      let rawEnergy := sw.2 * (((effMinEnergy cfg : ℚ) + (effMaxEnergy cfg : ℚ)) / 2)
      let energy0 := pyTrunc rawEnergy
      let energy1 := if energy0 < effMinEnergy cfg then effMinEnergy cfg else energy0
      if energy1 > effMaxEnergy cfg then effMaxEnergy cfg else energy1)
    (seeds.zip (List.replicate seeds.length (1 : ℚ))) [] (by simp) ?_ p hp
  intro x hx
  have hx2 : x.2 = 1 := by
    have := List.of_mem_zip hx
    exact List.eq_of_mem_replicate this.2
  simp only [hx2, one_mul]
  rfl

lemma computePowerSchedule_none_eq (seeds : List SeedStats) :
    computePowerSchedule seeds none = computePowerSchedule seeds (some {}) := rfl

lemma uniformEnergy_bounds (cfg : ScheduleConfig) :
    effMinEnergy cfg ≤ uniformEnergy cfg ∧ uniformEnergy cfg ≤ effMaxEnergy cfg := by
  have hle : effMinEnergy cfg ≤ effMaxEnergy cfg := le_max_right _ _
  unfold uniformEnergy
  simp only []
  split_ifs with h1 h2 h3 <;> omega

/-- The claim’s prediction: with the weight formula of the spec, two seeds
differing only in `fuzz_count` receive different energies.  The code refutes
it: `_compute_seed_weight` ignores the statistics, so seeds with
`fuzz_count` 0 and 5 both receive energy 64, strictly inside the default
`[1, 128]` clamp. -/
theorem claim_C2_counterexample :
    (computePowerSchedule
        [{ id := 0, fuzzCount := 0 }, { id := 1, fuzzCount := 5 }]
        none).seedEnergies = [(0, 64), (1, 64)] ∧
      (1 : Int) < 64 ∧ (64 : Int) < 128 := by
  refine ⟨by decide, by decide, by decide⟩

/-- C2 (amended): `compute_power_schedule` ignores `fuzz_count`,
`avg_score` and `bug_count` entirely: on every non-empty seed list every
seed receives the same energy, namely the truncated midpoint
`int((min_energy + max_energy)/2)` clamped into `[min_energy, max_energy]`. -/
theorem claim_C2_theorem (seeds : List SeedStats) (config : Option ScheduleConfig)
    (h : seeds ≠ []) :
    ∀ p ∈ (computePowerSchedule seeds config).seedEnergies,
      p.2 = uniformEnergy (config.getD {}) := by
  cases config with
  | none =>
    rw [computePowerSchedule_none_eq]
    simpa using computePowerSchedule_some_energies seeds {} h
  | some c =>
    simpa using computePowerSchedule_some_energies seeds c h

/-- Witness for C2: the amended theorem applied to a concrete seed list. -/
theorem claim_C2_witness :
    (((0 : Int), (64 : Int))).2 =
      uniformEnergy ((none : Option ScheduleConfig).getD {}) :=
  claim_C2_theorem [{ id := 0, fuzzCount := 0 }] none (by decide)
    ((0 : Int), (64 : Int)) (by decide)

/-- C7: every value in the `seed_energies` map returned by
`compute_power_schedule` is an integer in `[min_energy, max_energy]`
(after `min_energy` is normalized to at least 1 and `max_energy` to at
least `min_energy`; defaults 1 and 128), for every input list and every
configuration. -/
theorem claim_C7_theorem (seeds : List SeedStats) (config : Option ScheduleConfig) :
    ∀ p ∈ (computePowerSchedule seeds config).seedEnergies,
      effMinEnergy (config.getD {}) ≤ p.2 ∧ p.2 ≤ effMaxEnergy (config.getD {}) := by
  intro p hp
  by_cases hnil : seeds = []
  · subst hnil
    cases config <;> simp [computePowerSchedule] at hp
  · have h : seeds ≠ [] := hnil
    have huni : p.2 = uniformEnergy (config.getD {}) := by
      cases config with
      | none =>
        rw [computePowerSchedule_none_eq] at hp
        simpa using computePowerSchedule_some_energies seeds {} h p hp
      | some c =>
        simpa using computePowerSchedule_some_energies seeds c h p hp
    rw [huni]
    exact uniformEnergy_bounds _

/-- Witness for C7: the bound evaluated on a concrete schedule entry. -/
theorem claim_C7_witness :
    effMinEnergy ((none : Option ScheduleConfig).getD {}) ≤ (((3 : Int), (64 : Int))).2 ∧
      (((3 : Int), (64 : Int))).2 ≤ effMaxEnergy ((none : Option ScheduleConfig).getD {}) :=
  claim_C7_theorem [{ id := 3, fuzzCount := 9, bugCount := 2 }] none
    ((3 : Int), (64 : Int)) (by decide)

end Power

/-! ## Seed corpus (`src/seed_corpus/corpus.py`) -/

namespace Corpus

/-- The RNG oracle: a stream of draws and a cursor.  `random.randrange(n)`
style picks take the next draw modulo `n`; quantifying over streams covers
every behaviour of Python's `random.Random`. -/
structure Rng where
  stream : Nat → Nat
  cursor : Nat := 0

/-- Draw one value below `n` and advance the cursor. -/
def Rng.draw (r : Rng) (n : Nat) : Nat × Rng :=
  (r.stream r.cursor % n, { r with cursor := r.cursor + 1 })

/-- An immutable seed artifact (`seed_corpus/corpus.py` dataclass `Seed`). -/
structure Seed where
  seedId : String
  family : String := ""
  bucket : String := ""
  label : String := ""
  text : String := ""
  tags : List String := []
  expected : String := "unknown"
  ordinal : Nat := 0
  fingerprint : String := ""
deriving Repr, DecidableEq

/-- Structured rendering of the exceptions `corpus.py` raises from the
ratio-batch path (`ValueError`/`KeyError` with the quoted arguments). -/
inductive CorpusError
  | negativeTotal
  | emptyRatios
  | unknownBucket (name : String)
  | negativeRatio (name : String)
  | nonPositiveRatioSum
  | negativeBucketCount (name : String)
  | missingPool (name : String)
  | insufficientPool (targetLabel : String) (bucket : String)
      (requested : Int) (available : Nat)
deriving Repr, DecidableEq

/-- Per-item validation loop of `_plan_bucket_counts_from_ratios`:
unknown bucket, then negative ratio, in dict order. -/
def checkRatios (knownBuckets : List String) :
    List (String × ℚ) → Except CorpusError Unit
  | [] => .ok ()
  | (name, ratio) :: rest =>
    if name ∉ knownBuckets then .error (.unknownBucket name)
    else if ratio < 0 then .error (.negativeRatio name)
    else checkRatios knownBuckets rest

/-- `raw[k] − counts[k]` / `normalized[k]` / `k`, the sort key of the
largest-remainder leftover order. -/
def leftoverKey (total : Int) (ratioSum : ℚ) (kv : String × ℚ) : ℚ × ℚ × String :=
  let normalized := kv.2 / ratioSum
  let raw := normalized * (total : ℚ)
  (raw - (pyTrunc raw : ℚ), normalized, kv.1)

/-- Strict "greater" on sort keys: Python's `sorted(..., reverse=True)`
orders by the key tuple descending (all three components, the bucket name
included). -/
def keyGT (a b : ℚ × ℚ × String) : Bool :=
  if a.1 ≠ b.1 then decide (b.1 < a.1)
  else if a.2.1 ≠ b.2.1 then decide (b.2.1 < a.2.1)
  else strLt b.2.2 a.2.2

/-- Insertion sort by a strict "comes before" test (used with `keyGT`;
keys contain the distinct bucket names, so the order is total and the
result agrees with Python's stable sort). -/
def insertBy {α : Type} (before : α → α → Bool) (x : α) : List α → List α
  | [] => [x]
  | y :: ys => if before x y then x :: y :: ys else y :: insertBy before x ys

def sortBy {α : Type} (before : α → α → Bool) : List α → List α
  | [] => []
  | x :: xs => insertBy before x (sortBy before xs)

/-- Add 1 to the entry of `k` in an association list (Python
`counts[k] += 1`; the key is always present at the call sites). -/
def bumpAt (k : String) : List (String × Int) → List (String × Int)
  | [] => []
  | (k', v) :: rest => if k' = k then (k', v + 1) :: rest else (k', v) :: bumpAt k rest

/-- The leftover loop `for i in range(remainder): counts[order[i % len(order)]] += 1`. -/
def bumpLoop (order : List (String × ℚ)) (counts : List (String × Int)) (r : Nat) :
    List (String × Int) :=
  (List.range r).foldl
    (fun c i =>
      match order.get? (i % order.length) with
      | some kv => bumpAt kv.1 c
      | none => c)
    counts

/-- `ratio_sum = sum(bucket_ratios.values())`. -/
def ratioSumOf (bucketRatios : List (String × ℚ)) : ℚ :=
  (bucketRatios.map (·.2)).sum

/-- `counts = {k: int(raw[k]) for k in raw}`: the floor shares. -/
def floorCountsOf (total : Int) (bucketRatios : List (String × ℚ)) :
    List (String × Int) :=
  bucketRatios.map
    (fun kv => (kv.1, pyTrunc ((kv.2 / ratioSumOf bucketRatios) * (total : ℚ))))

/-- `order = sorted(raw.keys(), key=..., reverse=True)`: the leftover
assignment order (descending key tuples). -/
def leftoverOrderOf (total : Int) (bucketRatios : List (String × ℚ)) :
    List (String × ℚ) :=
  sortBy
    (fun a b => keyGT (leftoverKey total (ratioSumOf bucketRatios) a)
      (leftoverKey total (ratioSumOf bucketRatios) b))
    bucketRatios

/-- `_plan_bucket_counts_from_ratios` (src/seed_corpus/corpus.py 360–395).
Ratios are an insertion-ordered association list standing for the Python
dict (distinct keys). -/
def planBucketCounts (total : Int) (bucketRatios : List (String × ℚ))
    (knownBuckets : List String) : Except CorpusError (List (String × Int)) :=
  if total < 0 then .error .negativeTotal
  else if bucketRatios.isEmpty then .error .emptyRatios
  else
    match checkRatios knownBuckets bucketRatios with
    | .error e => .error e
    | .ok () =>
      if ratioSumOf bucketRatios ≤ 0 then .error .nonPositiveRatioSum
      else
        let counts := floorCountsOf total bucketRatios
        let remainder : Int := total - (counts.map (·.2)).sum
        .ok (bumpLoop (leftoverOrderOf total bucketRatios) counts remainder.toNat)

/-- Remove-at-index selection: the common oracle behind `random.sample`
(without replacement) and `random.shuffle`.  Each step draws an index into
the remaining pool and removes that element. -/
def drawK {α : Type} : Rng → List α → Nat → List α × Rng
  | rng, _, 0 => ([], rng)
  | rng, pool, Nat.succ k =>
    if pool.isEmpty then ([], rng)
    else
      let (i, rng') := rng.draw pool.length
      match pool.get? i with
      | none => ([], rng')
      | some x =>
        let (rest, rng'') := drawK rng' (pool.eraseIdx i) k
        (x :: rest, rng'')

/-- `random.sample(pool, k)` modelled by the selection oracle. -/
def pySample {α : Type} (rng : Rng) (pool : List α) (k : Nat) : List α × Rng :=
  drawK rng pool k

/-- `random.shuffle` modelled by the selection oracle (a permutation of
the input determined by the draw stream). -/
def pyShuffle {α : Type} (rng : Rng) (l : List α) : List α × Rng :=
  drawK rng l l.length

/-- Iteration of `_sample_from_bucket_pools` over the `bucket_counts`
items, accumulating the batch. -/
def samplePoolsGo (pools : List (String × List Seed)) (targetLabel : String) :
    List (String × Int) → List Seed → Rng → Except CorpusError (List Seed × Rng)
  | [], out, r => .ok (out, r)
  | (bucketName, count) :: rest, out, r =>
    if count < 0 then .error (.negativeBucketCount bucketName)
    else
      match pools.lookup bucketName with
      | none => .error (.missingPool bucketName)
      | some pool =>
        if count > (pool.length : Int) then
          .error (.insufficientPool targetLabel bucketName count pool.length)
        else if count ≠ 0 then
          let (picked, r') := pySample r pool count.toNat
          samplePoolsGo pools targetLabel rest (out ++ picked) r'
        else samplePoolsGo pools targetLabel rest out r

/-- `_sample_from_bucket_pools` (src/seed_corpus/corpus.py 328–347). -/
def sampleFromBucketPools (pools : List (String × List Seed))
    (bucketCounts : List (String × Int)) (rng : Rng) (targetLabel : String) :
    Except CorpusError (List Seed × Rng) :=
  samplePoolsGo pools targetLabel bucketCounts [] rng

/-- The non-grouped path of `SeedCorpus.sample_ratio_batch`
(src/seed_corpus/corpus.py 204–247): the target's buckets are given as an
insertion-ordered association list of pools. -/
def sampleRatioBatch (buckets : List (String × List Seed)) (targetLabel : String)
    (total : Int) (bucketRatios : List (String × ℚ)) (rng : Rng)
    (shuffle : Bool := true) : Except CorpusError (List Seed × Rng) :=
  match planBucketCounts total bucketRatios (buckets.map (·.1)) with
  | .error e => .error e
  | .ok counts =>
    match sampleFromBucketPools buckets counts rng targetLabel with
    | .error e => .error e
    | .ok (batch, rng') =>
      if shuffle ∧ 1 < batch.length then .ok (pyShuffle rng' batch)
      else .ok (batch, rng')

lemma cons_eraseIdx_perm {α : Type} :
    ∀ (l : List α) (i : Nat) (h : i < l.length),
      (l.get ⟨i, h⟩ :: l.eraseIdx i).Perm l := by
  intro l
  induction l with
  | nil => intro i h; simp at h
  | cons a tl ih =>
    intro i h
    cases i with
    | zero => simp [List.eraseIdx]
    | succ j =>
      have hj : j < tl.length := by simpa using h
      exact (List.Perm.swap a (tl.get ⟨j, hj⟩) (tl.eraseIdx j)).trans ((ih j hj).cons a)

lemma drawK_mem {α : Type} :
    ∀ (k : Nat) (rng : Rng) (pool : List α) (y : α),
      y ∈ (drawK rng pool k).1 → y ∈ pool := by
  intro k
  induction k with
  | zero => intro rng pool y hy; simp [drawK] at hy
  | succ k ih =>
    intro rng pool y hy
    by_cases hpool : pool.isEmpty
    · simp [drawK, hpool] at hy
    · simp only [drawK, hpool, Bool.false_eq_true, if_false] at hy
      rcases hget : pool.get? (rng.draw pool.length).1 with _ | x
      · rw [hget] at hy; simp at hy
      · rw [hget] at hy
        simp only [List.mem_cons] at hy
        rcases hy with hy | hy
        · rw [hy]; exact List.get?_mem hget
        · exact (List.eraseIdx_sublist pool (rng.draw pool.length).1).subset (ih _ _ y hy)

lemma get_not_mem_eraseIdx {α : Type} [DecidableEq α] (l : List α) (i : Nat)
    (h : i < l.length) (hnd : l.Nodup) : l.get ⟨i, h⟩ ∉ l.eraseIdx i := by
  have hperm := cons_eraseIdx_perm l i h
  have hcount1 : l.count (l.get ⟨i, h⟩) = 1 :=
    List.count_eq_one_of_mem hnd (l.get_mem i h)
  have hc := hperm.count_eq (l.get ⟨i, h⟩)
  rw [List.count_cons_self, hcount1] at hc
  have : (l.eraseIdx i).count (l.get ⟨i, h⟩) = 0 := by omega
  exact (List.count_eq_zero.mp this)

lemma drawK_nodup {α : Type} [DecidableEq α] :
    ∀ (k : Nat) (rng : Rng) (pool : List α),
      pool.Nodup → ((drawK rng pool k).1).Nodup := by
  intro k
  induction k with
  | zero => intro rng pool _; simp [drawK]
  | succ k ih =>
    intro rng pool hnd
    by_cases hpool : pool.isEmpty
    · simp [drawK, hpool]
    · simp only [drawK, hpool, Bool.false_eq_true, if_false]
      rcases hget : pool.get? (rng.draw pool.length).1 with _ | x
      · simp
      · have hi : (rng.draw pool.length).1 < pool.length := List.get?_eq_some.mp hget |>.1
        have hx : pool.get ⟨(rng.draw pool.length).1, hi⟩ = x := by
          have := List.get?_eq_get hi
          rw [hget] at this
          exact (Option.some.injEq _ _).mp this.symm
        simp only [List.nodup_cons]
        constructor
        · intro hmem
          have := drawK_mem k _ _ x hmem
          rw [← hx] at this
          exact get_not_mem_eraseIdx pool _ hi hnd this
        · exact ih _ _ ((List.eraseIdx_sublist pool _).nodup hnd)

lemma drawK_length {α : Type} :
    ∀ (k : Nat) (rng : Rng) (pool : List α),
      k ≤ pool.length → ((drawK rng pool k).1).length = k := by
  intro k
  induction k with
  | zero => intro rng pool _; simp [drawK]
  | succ k ih =>
    intro rng pool hk
    have hlen : 0 < pool.length := by omega
    have hpool : ¬ pool.isEmpty := by
      cases pool with
      | nil => simp at hlen
      | cons a l => simp
    simp only [drawK, hpool, Bool.false_eq_true, if_false]
    have hi : (rng.draw pool.length).1 < pool.length := Nat.mod_lt _ hlen
    rcases hget : pool.get? (rng.draw pool.length).1 with _ | x
    · exact absurd hget (by simp [List.get?_eq_some]; omega)
    · have herase : (pool.eraseIdx (rng.draw pool.length).1).length = pool.length - 1 := by
        rw [List.length_eraseIdx]; simp [hi]
      simp only [List.length_cons]
      rw [ih _ _ (by omega)]

lemma drawK_perm {α : Type} :
    ∀ (n : Nat) (rng : Rng) (l : List α),
      l.length = n → ((drawK rng l n).1).Perm l := by
  intro n
  induction n with
  | zero =>
    intro rng l hl
    rw [List.length_eq_zero.mp hl]
    simp [drawK]
  | succ n ih =>
    intro rng l hl
    have hlen : 0 < l.length := by omega
    have hpool : ¬ l.isEmpty := by
      cases l with
      | nil => simp at hlen
      | cons a t => simp
    simp only [drawK, hpool, Bool.false_eq_true, if_false]
    have hi : (rng.draw l.length).1 < l.length := Nat.mod_lt _ hlen
    rcases hget : l.get? (rng.draw l.length).1 with _ | x
    · exact absurd hget (by simp [List.get?_eq_some]; omega)
    · have hx : l.get ⟨(rng.draw l.length).1, hi⟩ = x := by
        have := List.get?_eq_get hi
        rw [hget] at this
        exact (Option.some.injEq _ _).mp this.symm
      have herase : (l.eraseIdx (rng.draw l.length).1).length = n := by
        rw [List.length_eraseIdx]; simp [hi]; omega
      refine ((ih _ _ herase).cons x).trans ?_
      rw [← hx]
      exact cons_eraseIdx_perm l _ hi

lemma checkRatios_ok {known : List String} :
    ∀ {ratios : List (String × ℚ)}, checkRatios known ratios = .ok () →
      ∀ kv ∈ ratios, kv.1 ∈ known ∧ 0 ≤ kv.2 := by
  intro ratios
  induction ratios with
  | nil => intro _ kv hkv; simp at hkv
  | cons hd tl ih =>
    intro h kv hkv
    rcases hd with ⟨name, ratio⟩
    simp only [checkRatios] at h
    by_cases h1 : name ∈ known
    · rw [if_neg (by simpa using h1)] at h
      by_cases h2 : ratio < 0
      · rw [if_pos h2] at h; exact absurd h (by simp)
      · rw [if_neg h2] at h
        rcases List.mem_cons.mp hkv with rfl | hkv'
        · exact ⟨h1, le_of_not_lt h2⟩
        · exact ih h kv hkv'
    · rw [if_pos (by simpa using h1)] at h
      exact absurd h (by simp)

lemma insertBy_perm {α : Type} (before : α → α → Bool) (x : α) :
    ∀ l : List α, (insertBy before x l).Perm (x :: l) := by
  intro l
  induction l with
  | nil => simp [insertBy]
  | cons y ys ih =>
    simp only [insertBy]
    by_cases h : before x y
    · rw [if_pos h]
    · rw [if_neg h]
      exact (ih.cons y).trans (List.Perm.swap x y ys)

lemma sortBy_perm {α : Type} (before : α → α → Bool) :
    ∀ l : List α, (sortBy before l).Perm l := by
  intro l
  induction l with
  | nil => simp [sortBy]
  | cons x xs ih =>
    exact (insertBy_perm before x (sortBy before xs)).trans (ih.cons x)

lemma bumpAt_keys (k : String) :
    ∀ l : List (String × Int), (bumpAt k l).map Prod.fst = l.map Prod.fst := by
  intro l
  induction l with
  | nil => simp [bumpAt]
  | cons hd tl ih =>
    rcases hd with ⟨k', v⟩
    simp only [bumpAt]
    by_cases h : k' = k
    · rw [if_pos h]; simp
    · rw [if_neg h]; simpa using ih

lemma bumpAt_sum_of_mem (k : String) :
    ∀ l : List (String × Int), k ∈ l.map Prod.fst →
      ((bumpAt k l).map Prod.snd).sum = (l.map Prod.snd).sum + 1 := by
  intro l
  induction l with
  | nil => intro h; simp at h
  | cons hd tl ih =>
    intro hmem
    rcases hd with ⟨k', v⟩
    simp only [bumpAt]
    by_cases h : k' = k
    · rw [if_pos h]; simp; ring
    · rw [if_neg h]
      have hmem' : k ∈ tl.map Prod.fst := by
        rcases List.mem_map.mp hmem with ⟨p, hp, hpk⟩
        rcases List.mem_cons.mp hp with rfl | hp'
        · exact absurd hpk h
        · exact List.mem_map.mpr ⟨p, hp', hpk⟩
      simp only [List.map_cons, List.sum_cons, ih hmem']
      ring

/-- Pointwise dominance with aligned keys. -/
def bumpRel (p q : String × Int) : Prop := p.1 = q.1 ∧ q.2 ≤ p.2

lemma forall2_bumpRel_refl : ∀ l : List (String × Int), List.Forall₂ bumpRel l l := by
  intro l
  induction l with
  | nil => exact List.Forall₂.nil
  | cons x xs ih => exact List.Forall₂.cons ⟨rfl, le_refl _⟩ ih

lemma bumpAt_forall2 (k : String) :
    ∀ l : List (String × Int), List.Forall₂ bumpRel (bumpAt k l) l := by
  intro l
  induction l with
  | nil => simp [bumpAt]
  | cons hd tl ih =>
    rcases hd with ⟨k', v⟩
    simp only [bumpAt]
    by_cases h : k' = k
    · rw [if_pos h]
      exact List.Forall₂.cons ⟨rfl, by omega⟩ (forall2_bumpRel_refl tl)
    · rw [if_neg h]
      exact List.Forall₂.cons ⟨rfl, le_refl _⟩ ih

lemma forall2_bumpRel_trans :
    ∀ {a b c : List (String × Int)}, List.Forall₂ bumpRel a b →
      List.Forall₂ bumpRel b c → List.Forall₂ bumpRel a c := by
  intro a
  induction a with
  | nil =>
    intro b c hab hbc
    cases hab; cases hbc; exact List.Forall₂.nil
  | cons x xs ih =>
    intro b c hab hbc
    cases hab with
    | cons hxy hab' =>
      cases hbc with
      | cons hyz hbc' =>
        exact List.Forall₂.cons ⟨hxy.1.trans hyz.1, le_trans hyz.2 hxy.2⟩ (ih hab' hbc')

lemma bumpLoop_succ (order : List (String × ℚ)) (counts : List (String × Int)) (r : Nat) :
    bumpLoop order counts (r + 1) =
      match order.get? (r % order.length) with
      | some kv => bumpAt kv.1 (bumpLoop order counts r)
      | none => bumpLoop order counts r := by
  unfold bumpLoop
  rw [List.range_succ, List.foldl_append]
  rfl

lemma bumpLoop_keys (order : List (String × ℚ)) (counts : List (String × Int)) :
    ∀ r : Nat, (bumpLoop order counts r).map Prod.fst = counts.map Prod.fst := by
  intro r
  induction r with
  | zero => simp [bumpLoop]
  | succ r ih =>
    rw [bumpLoop_succ]
    rcases h : order.get? (r % order.length) with _ | kv
    · simpa using ih
    · simp only [bumpAt_keys]; exact ih

lemma bumpLoop_forall2 (order : List (String × ℚ)) (counts : List (String × Int)) :
    ∀ r : Nat, List.Forall₂ bumpRel (bumpLoop order counts r) counts := by
  intro r
  induction r with
  | zero => simp only [bumpLoop, List.range_zero, List.foldl_nil]; exact forall2_bumpRel_refl counts
  | succ r ih =>
    rw [bumpLoop_succ]
    rcases h : order.get? (r % order.length) with _ | kv
    · exact ih
    · exact forall2_bumpRel_trans (bumpAt_forall2 kv.1 _) ih

lemma bumpLoop_sum (order : List (String × ℚ)) (counts : List (String × Int))
    (horder : order ≠ [])
    (hsub : ∀ kv ∈ order, kv.1 ∈ counts.map Prod.fst) :
    ∀ r : Nat, ((bumpLoop order counts r).map Prod.snd).sum =
      (counts.map Prod.snd).sum + r := by
  intro r
  induction r with
  | zero => simp [bumpLoop]
  | succ r ih =>
    rw [bumpLoop_succ]
    have hlen : 0 < order.length := List.length_pos.mpr horder
    have hmod : r % order.length < order.length := Nat.mod_lt _ hlen
    rcases h : order.get? (r % order.length) with _ | kv
    · exact absurd h (by simp [List.get?_eq_some]; omega)
    · have hkv : kv ∈ order := List.get?_mem h
      have hk : kv.1 ∈ (bumpLoop order counts r).map Prod.fst := by
        rw [bumpLoop_keys]; exact hsub kv hkv
      rw [bumpAt_sum_of_mem kv.1 _ hk, ih]
      push_cast
      ring

lemma planBucketCounts_ok_elim {total : Int} {ratios : List (String × ℚ)}
    {known : List String} {counts : List (String × Int)}
    (h : planBucketCounts total ratios known = .ok counts) :
    0 ≤ total ∧ ratios ≠ [] ∧ checkRatios known ratios = .ok () ∧
      0 < ratioSumOf ratios ∧
      counts = bumpLoop (leftoverOrderOf total ratios) (floorCountsOf total ratios)
        (total - ((floorCountsOf total ratios).map (·.2)).sum).toNat := by
  unfold planBucketCounts at h
  by_cases h1 : total < 0
  · rw [if_pos h1] at h; exact absurd h (by simp)
  rw [if_neg h1] at h
  by_cases h2 : ratios.isEmpty
  · rw [if_pos h2] at h; exact absurd h (by simp)
  rw [if_neg h2] at h
  rcases h3 : checkRatios known ratios with e | u
  · rw [h3] at h; exact absurd h (by simp)
  cases u
  rw [h3] at h
  simp only [] at h
  by_cases h4 : ratioSumOf ratios ≤ 0
  · rw [if_pos h4] at h; exact absurd h (by simp)
  rw [if_neg h4] at h
  refine ⟨not_lt.mp h1, ?_, ?_, lt_of_not_le h4, ?_⟩
  · intro hnil; rw [hnil] at h2; exact h2 rfl
  · simp [h3]
  · exact (Except.ok.injEq _ _).mp h.symm

lemma floorCounts_keys (total : Int) (ratios : List (String × ℚ)) :
    (floorCountsOf total ratios).map Prod.fst = ratios.map Prod.fst := by
  unfold floorCountsOf
  rw [List.map_map]
  rfl

lemma floorCounts_nonneg (total : Int) (ratios : List (String × ℚ))
    (htotal : 0 ≤ total) (hS : 0 < ratioSumOf ratios)
    (hr : ∀ kv ∈ ratios, 0 ≤ kv.2) :
    ∀ p ∈ floorCountsOf total ratios, 0 ≤ p.2 := by
  intro p hp
  unfold floorCountsOf at hp
  rcases List.mem_map.mp hp with ⟨kv, hkv, rfl⟩
  have hraw : 0 ≤ (kv.2 / ratioSumOf ratios) * (total : ℚ) :=
    mul_nonneg (div_nonneg (hr kv hkv) (le_of_lt hS)) (by exact_mod_cast htotal)
  simp only [pyTrunc, not_lt.mpr hraw, if_neg (not_lt.mpr hraw)]
  exact Int.floor_nonneg.mpr hraw

lemma raw_share_sum (total : Int) (ratios : List (String × ℚ))
    (hS : ratioSumOf ratios ≠ 0) :
    (ratios.map (fun kv => (kv.2 / ratioSumOf ratios) * (total : ℚ))).sum
      = (total : ℚ) := by
  have hcong : ratios.map (fun kv => (kv.2 / ratioSumOf ratios) * (total : ℚ))
      = ratios.map (fun kv => kv.2 * ((total : ℚ) / ratioSumOf ratios)) := by
    apply List.map_congr_left
    intro kv _
    rw [div_mul_eq_mul_div, mul_div_assoc]
  rw [hcong, List.sum_map_mul_right]
  have : (ratios.map (·.2)).sum = ratioSumOf ratios := rfl
  rw [this, mul_div_cancel₀ _ hS]

lemma floorCounts_sum_le (total : Int) (ratios : List (String × ℚ))
    (htotal : 0 ≤ total) (hS : 0 < ratioSumOf ratios)
    (hr : ∀ kv ∈ ratios, 0 ≤ kv.2) :
    ((floorCountsOf total ratios).map (·.2)).sum ≤ total := by
  have hsnd : (floorCountsOf total ratios).map (·.2)
      = ratios.map (fun kv => pyTrunc ((kv.2 / ratioSumOf ratios) * (total : ℚ))) := by
    unfold floorCountsOf
    rw [List.map_map]
    rfl
  rw [hsnd]
  have hcast : (((ratios.map
      (fun kv => pyTrunc ((kv.2 / ratioSumOf ratios) * (total : ℚ)))).sum : Int) : ℚ)
      ≤ ((total : Int) : ℚ) := by
    have hcomm : (((ratios.map
        (fun kv => pyTrunc ((kv.2 / ratioSumOf ratios) * (total : ℚ)))).sum : Int) : ℚ)
      = (ratios.map
          (fun kv => ((pyTrunc ((kv.2 / ratioSumOf ratios) * (total : ℚ)) : Int) : ℚ))).sum := by
      have hmono := map_list_sum (Int.castRingHom ℚ)
        (ratios.map (fun kv => pyTrunc ((kv.2 / ratioSumOf ratios) * (total : ℚ))))
      rw [List.map_map] at hmono
      exact hmono
    rw [hcomm]
    calc (ratios.map
          (fun kv => ((pyTrunc ((kv.2 / ratioSumOf ratios) * (total : ℚ)) : Int) : ℚ))).sum
        ≤ (ratios.map (fun kv => (kv.2 / ratioSumOf ratios) * (total : ℚ))).sum := by
          apply List.sum_le_sum
          intro kv hkv
          have hraw : 0 ≤ (kv.2 / ratioSumOf ratios) * (total : ℚ) :=
            mul_nonneg (div_nonneg (hr kv hkv) (le_of_lt hS)) (by exact_mod_cast htotal)
          simp only [pyTrunc, if_neg (not_lt.mpr hraw)]
          exact Int.floor_le _
      _ = (total : ℚ) := raw_share_sum total ratios (ne_of_gt hS)
  exact_mod_cast hcast

/-- The planned counts sum to exactly `total`. -/
lemma planBucketCounts_sum {total : Int} {ratios : List (String × ℚ)}
    {known : List String} {counts : List (String × Int)}
    (h : planBucketCounts total ratios known = .ok counts) :
    (counts.map (·.2)).sum = total := by
  obtain ⟨htotal, hne, hchk, hS, hcounts⟩ := planBucketCounts_ok_elim h
  have hr : ∀ kv ∈ ratios, 0 ≤ kv.2 := fun kv hkv => (checkRatios_ok hchk kv hkv).2
  have hfl := floorCounts_sum_le total ratios htotal hS hr
  have horder : leftoverOrderOf total ratios ≠ [] := by
    unfold leftoverOrderOf
    intro hnil
    have hlen := (sortBy_perm (fun a b => keyGT (leftoverKey total (ratioSumOf ratios) a)
        (leftoverKey total (ratioSumOf ratios) b)) ratios).length_eq
    rw [hnil] at hlen
    simp only [List.length_nil] at hlen
    exact hne (List.length_eq_zero.mp hlen.symm)
  have hsub : ∀ kv ∈ leftoverOrderOf total ratios,
      kv.1 ∈ (floorCountsOf total ratios).map Prod.fst := by
    intro kv hkv
    unfold leftoverOrderOf at hkv
    have hmem : kv ∈ ratios :=
      ((sortBy_perm (fun a b => keyGT (leftoverKey total (ratioSumOf ratios) a)
        (leftoverKey total (ratioSumOf ratios) b)) ratios).mem_iff).mp hkv
    rw [floorCounts_keys]
    exact List.mem_map.mpr ⟨kv, hmem, rfl⟩
  rw [hcounts, bumpLoop_sum _ _ horder hsub]
  have hnonneg : 0 ≤ total - ((floorCountsOf total ratios).map (·.2)).sum := by omega
  rw [Int.toNat_of_nonneg hnonneg]
  have heq : (List.map Prod.snd (floorCountsOf total ratios)).sum
      = (List.map (fun x : String × Int => x.2) (floorCountsOf total ratios)).sum := rfl
  omega

lemma forall2_eqmap_compose {α β : Type} (g : α → β) (R : β → β → Prop) :
    ∀ {l2 : List α} {l1 : List β}, List.Forall₂ R l1 (l2.map g) →
      List.Forall₂ (fun b a => R b (g a)) l1 l2 := by
  intro l2
  induction l2 with
  | nil =>
    intro l1 h
    cases h
    exact List.Forall₂.nil
  | cons a t ih =>
    intro l1 h
    cases h with
    | cons hba h' => exact List.Forall₂.cons hba (ih h')

/-- Keys aligned with the ratios and every count at least the floor share. -/
lemma planBucketCounts_forall2 {total : Int} {ratios : List (String × ℚ)}
    {known : List String} {counts : List (String × Int)}
    (h : planBucketCounts total ratios known = .ok counts) :
    List.Forall₂
      (fun (c : String × Int) (kv : String × ℚ) =>
        c.1 = kv.1 ∧ pyTrunc ((kv.2 / ratioSumOf ratios) * (total : ℚ)) ≤ c.2)
      counts ratios := by
  obtain ⟨_, _, _, _, hcounts⟩ := planBucketCounts_ok_elim h
  have h1 : List.Forall₂ bumpRel counts (floorCountsOf total ratios) := by
    rw [hcounts]; exact bumpLoop_forall2 _ _ _
  have h1' : List.Forall₂ bumpRel counts
      (ratios.map (fun kv : String × ℚ =>
        (kv.1, pyTrunc ((kv.2 / ratioSumOf ratios) * (total : ℚ))))) := h1
  have h3 := forall2_eqmap_compose
    (fun kv : String × ℚ => (kv.1, pyTrunc ((kv.2 / ratioSumOf ratios) * (total : ℚ))))
    bumpRel h1'
  exact h3.imp (fun _ _ hab => ⟨hab.1, hab.2⟩)

/-- C5: on the tie `total=1`, `{a: 0.5, b: 0.5}` the claim's ascending
name tie-break would give the leftover unit to `"a"`; the code sorts the
whole key tuple `(remainder, ratio, name)` with `reverse=True`, so `"b"`
receives it. -/
theorem claim_C5_counterexample :
    planBucketCounts 1 [("a", (1:ℚ)/2), ("b", (1:ℚ)/2)] ["a", "b"]
      = .ok [("a", 0), ("b", 1)] ∧
    [(("a" : String), (0 : Int)), ("b", 1)] ≠ [("a", 1), ("b", 0)] :=
  ⟨rfl, by decide⟩

/-- C5 (amended): `_plan_bucket_counts_from_ratios` performs
largest-remainder rounding — every bucket receives at least
`floor(total·normalized_ratio)`, the counts sum to exactly `total`, and the
leftover units are assigned following the order sorted descending by
`(raw remainder, normalized ratio, bucket name)`; in particular total=40
with ratios `{valid: 0.5, string_stress: 0.25, near_valid: 0.25}` yields
exactly `{20, 10, 10}` (the function is RNG-independent). -/
theorem claim_C5_theorem :
    (∀ (total : Int) (ratios : List (String × ℚ)) (known : List String)
        (counts : List (String × Int)),
      planBucketCounts total ratios known = .ok counts →
        (counts.map (·.2)).sum = total ∧
        List.Forall₂ (fun (c : String × Int) (kv : String × ℚ) =>
          c.1 = kv.1 ∧ pyTrunc ((kv.2 / ratioSumOf ratios) * (total : ℚ)) ≤ c.2)
          counts ratios ∧
        counts = bumpLoop (leftoverOrderOf total ratios) (floorCountsOf total ratios)
          (total - ((floorCountsOf total ratios).map (·.2)).sum).toNat) ∧
    planBucketCounts 40
        [("valid", (1:ℚ)/2), ("string_stress", (1:ℚ)/4), ("near_valid", (1:ℚ)/4)]
        ["valid", "string_stress", "near_valid"]
      = .ok [("valid", 20), ("string_stress", 10), ("near_valid", 10)] := by
  refine ⟨?_, rfl⟩
  intro total ratios known counts h
  exact ⟨planBucketCounts_sum h, planBucketCounts_forall2 h,
    (planBucketCounts_ok_elim h).2.2.2.2⟩

/-- Witness for C5: the general part applied to the tie example. -/
theorem claim_C5_witness :
    ([(("a" : String), (0 : Int)), ("b", 1)].map (·.2)).sum = (1 : Int) :=
  (claim_C5_theorem.1 1 [("a", (1:ℚ)/2), ("b", (1:ℚ)/2)] ["a", "b"]
    [("a", 0), ("b", 1)] (by rfl)).1

lemma forall2_mem_left {α β : Type} {R : α → β → Prop} :
    ∀ {l1 : List α} {l2 : List β}, List.Forall₂ R l1 l2 →
      ∀ a ∈ l1, ∃ b ∈ l2, R a b := by
  intro l1
  induction l1 with
  | nil => intro l2 _ a ha; simp at ha
  | cons x xs ih =>
    intro l2 h a ha
    cases h with
    | cons hxy h' =>
      rcases List.mem_cons.mp ha with rfl | ha'
      · exact ⟨_, List.mem_cons_self _ _, hxy⟩
      · rcases ih h' a ha' with ⟨b, hb, hab⟩
        exact ⟨b, List.mem_cons_of_mem _ hb, hab⟩

/-- All planned counts are non-negative. -/
lemma planBucketCounts_nonneg {total : Int} {ratios : List (String × ℚ)}
    {known : List String} {counts : List (String × Int)}
    (h : planBucketCounts total ratios known = .ok counts) :
    ∀ p ∈ counts, 0 ≤ p.2 := by
  obtain ⟨htotal, _, hchk, hS, _⟩ := planBucketCounts_ok_elim h
  have hr : ∀ kv ∈ ratios, 0 ≤ kv.2 := fun kv hkv => (checkRatios_ok hchk kv hkv).2
  intro p hp
  rcases forall2_mem_left (planBucketCounts_forall2 h) p hp with ⟨kv, hkv, _, hge⟩
  have hraw : 0 ≤ (kv.2 / ratioSumOf ratios) * (total : ℚ) :=
    mul_nonneg (div_nonneg (hr kv hkv) (le_of_lt hS)) (by exact_mod_cast htotal)
  have hfl : 0 ≤ pyTrunc ((kv.2 / ratioSumOf ratios) * (total : ℚ)) := by
    simp only [pyTrunc, if_neg (not_lt.mpr hraw)]
    exact Int.floor_nonneg.mpr hraw
  omega

lemma sum_toNat_eq : ∀ l : List Int, (∀ x ∈ l, 0 ≤ x) →
    ((l.map Int.toNat).sum : Int) = l.sum := by
  intro l
  induction l with
  | nil => intro _; simp
  | cons x xs ih =>
    intro hx
    simp only [List.map_cons, List.sum_cons]
    rw [Nat.cast_add, ih (fun y hy => hx y (List.mem_cons_of_mem _ hy)),
      Int.toNat_of_nonneg (hx x (List.mem_cons_self _ _))]

/-- Membership in a looked-up pool implies membership in the joined pools. -/
lemma lookup_subset_join {β : Type} :
    ∀ (pools : List (String × List β)) (k : String) (pool : List β),
      pools.lookup k = some pool → ∀ x ∈ pool, x ∈ (pools.map (·.2)).join := by
  intro pools
  induction pools with
  | nil => intro k pool h; simp [List.lookup] at h
  | cons hd tl ih =>
    intro k pool h x hx
    rcases hd with ⟨k0, p0⟩
    simp only [List.lookup] at h
    by_cases hk : (k == k0) = true
    · simp only [hk] at h
      cases h
      simp only [List.map_cons, List.join]
      exact List.mem_append.mpr (Or.inl hx)
    · rw [Bool.not_eq_true] at hk
      simp only [hk] at h
      simp only [List.map_cons, List.join]
      exact List.mem_append.mpr (Or.inr (ih k pool h x hx))

/-- From a duplicate-free joined pool list: every looked-up pool is
duplicate-free and pools at distinct keys are disjoint. -/
lemma lookup_nodup_disjoint {β : Type} :
    ∀ (pools : List (String × List β)),
      ((pools.map (·.2)).join).Nodup →
      (∀ k pool, pools.lookup k = some pool → pool.Nodup) ∧
      (∀ k1 k2 pool1 pool2, k1 ≠ k2 → pools.lookup k1 = some pool1 →
        pools.lookup k2 = some pool2 → ∀ x ∈ pool1, x ∉ pool2) := by
  intro pools
  induction pools with
  | nil =>
    intro _
    constructor
    · intro k pool h; simp [List.lookup] at h
    · intro k1 k2 pool1 pool2 _ h1; simp [List.lookup] at h1
  | cons hd tl ih =>
    intro hjoin
    rcases hd with ⟨k0, p0⟩
    simp only [List.map_cons, List.join] at hjoin
    have h0 : p0.Nodup := hjoin.of_append_left
    have htl : ((tl.map (·.2)).join).Nodup := hjoin.of_append_right
    have hdisj : ∀ x ∈ p0, x ∉ (tl.map (·.2)).join :=
      fun x hx => (List.disjoint_of_nodup_append hjoin) hx
    obtain ⟨ihn, ihd⟩ := ih htl
    constructor
    · intro k pool h
      simp only [List.lookup] at h
      by_cases hk : (k == k0) = true
      · simp only [hk] at h; cases h; exact h0
      · rw [Bool.not_eq_true] at hk
        simp only [hk] at h
        exact ihn k pool h
    · intro k1 k2 pool1 pool2 hne h1 h2 x hx1
      simp only [List.lookup] at h1 h2
      by_cases hk1 : (k1 == k0) = true
      · simp only [hk1] at h1
        cases h1
        have hk2 : (k2 == k0) = false := by
          rw [beq_iff_eq] at hk1
          rw [beq_eq_false_iff_ne]
          rw [hk1] at hne
          exact fun hc => hne hc.symm
        simp only [hk2] at h2
        intro hx2
        exact hdisj x hx1 (lookup_subset_join tl k2 pool2 h2 x hx2)
      · rw [Bool.not_eq_true] at hk1
        simp only [hk1] at h1
        by_cases hk2 : (k2 == k0) = true
        · simp only [hk2] at h2
          cases h2
          intro hx2
          exact hdisj x hx2 (lookup_subset_join tl k1 pool1 h1 x hx1)
        · rw [Bool.not_eq_true] at hk2
          simp only [hk2] at h2
          exact ihd k1 k2 pool1 pool2 hne h1 h2 x hx1

/-- If some requested bucket count exceeds its pool size, the sampling
iteration raises. -/
lemma samplePoolsGo_error {pools : List (String × List Seed)} {label : String} :
    ∀ (cl : List (String × Int)) (out : List Seed) (rng : Rng),
      (∃ p ∈ cl, ∃ pool, pools.lookup p.1 = some pool ∧ (pool.length : Int) < p.2) →
      ∃ e, samplePoolsGo pools label cl out rng = .error e := by
  intro cl
  induction cl with
  | nil => intro out rng h; simp at h
  | cons hd rest ih =>
    intro out rng h
    rcases hd with ⟨k0, c0⟩
    rcases h with ⟨p, hp, pool, hlook, hover⟩
    simp only [samplePoolsGo]
    by_cases hneg : c0 < 0
    · exact ⟨_, by rw [if_pos hneg]⟩
    rw [if_neg hneg]
    rcases List.mem_cons.mp hp with rfl | hp'
    · simp only [hlook]
      have hgt : c0 > (pool.length : Int) := hover
      rw [if_pos hgt]
      exact ⟨_, rfl⟩
    · rcases hlook0 : pools.lookup k0 with _ | pool0
      · simp only [hlook0]
        exact ⟨_, rfl⟩
      · simp only [hlook0]
        by_cases hover0 : c0 > (pool0.length : Int)
        · rw [if_pos hover0]; exact ⟨_, rfl⟩
        · rw [if_neg hover0]
          by_cases hzero : c0 ≠ 0
          · rw [if_pos hzero]
            exact ih _ _ ⟨p, hp', pool, hlook, hover⟩
          · rw [if_neg hzero]
            exact ih _ _ ⟨p, hp', pool, hlook, hover⟩

/-- On success the batch extends the accumulator by exactly the requested
counts. -/
lemma samplePoolsGo_length {pools : List (String × List Seed)} {label : String} :
    ∀ (cl : List (String × Int)) (out : List Seed) (rng : Rng)
      (batch : List Seed) (rng' : Rng),
      samplePoolsGo pools label cl out rng = .ok (batch, rng') →
      batch.length = out.length + (cl.map (fun p => p.2.toNat)).sum := by
  intro cl
  induction cl with
  | nil =>
    intro out rng batch rng' h
    simp only [samplePoolsGo] at h
    cases h
    simp
  | cons hd rest ih =>
    intro out rng batch rng' h
    rcases hd with ⟨k0, c0⟩
    simp only [samplePoolsGo] at h
    by_cases hneg : c0 < 0
    · rw [if_pos hneg] at h; exact absurd h (by simp)
    rw [if_neg hneg] at h
    rcases hlook0 : pools.lookup k0 with _ | pool0
    · simp only [hlook0] at h
      exact absurd h (by simp)
    simp only [hlook0] at h
    by_cases hover0 : c0 > (pool0.length : Int)
    · rw [if_pos hover0] at h; exact absurd h (by simp)
    rw [if_neg hover0] at h
    by_cases hzero : c0 ≠ 0
    · rw [if_pos hzero] at h
      have hlen := ih _ _ _ _ h
      have hkle : c0.toNat ≤ pool0.length := by omega
      rw [hlen, List.length_append]
      simp only [pySample]
      rw [drawK_length c0.toNat rng pool0 hkle]
      simp only [List.map_cons, List.sum_cons]
      omega
    · rw [if_neg hzero] at h
      have hlen := ih _ _ _ _ h
      have hc0 : c0 = 0 := by omega
      rw [hlen, hc0]
      simp

/-- On success, with duplicate-free disjoint pools and duplicate-free
bucket keys, the batch (extending a compatible accumulator) stays
duplicate-free. -/
lemma samplePoolsGo_nodup {pools : List (String × List Seed)} {label : String}
    (hpn : ∀ k pool, pools.lookup k = some pool → pool.Nodup)
    (hpd : ∀ k1 k2 pool1 pool2, k1 ≠ k2 → pools.lookup k1 = some pool1 →
      pools.lookup k2 = some pool2 → ∀ x ∈ pool1, x ∉ pool2) :
    ∀ (cl : List (String × Int)) (out : List Seed) (rng : Rng)
      (batch : List Seed) (rng' : Rng),
      samplePoolsGo pools label cl out rng = .ok (batch, rng') →
      (cl.map Prod.fst).Nodup →
      out.Nodup →
      (∀ p ∈ cl, ∀ pool, pools.lookup p.1 = some pool → ∀ x ∈ out, x ∉ pool) →
      batch.Nodup := by
  intro cl
  induction cl with
  | nil =>
    intro out rng batch rng' h _ hout _
    simp only [samplePoolsGo] at h
    cases h
    exact hout
  | cons hd rest ih =>
    intro out rng batch rng' h hkeys hout hinv
    rcases hd with ⟨k0, c0⟩
    simp only [samplePoolsGo] at h
    by_cases hneg : c0 < 0
    · rw [if_pos hneg] at h; exact absurd h (by simp)
    rw [if_neg hneg] at h
    rcases hlook0 : pools.lookup k0 with _ | pool0
    · simp only [hlook0] at h
      exact absurd h (by simp)
    simp only [hlook0] at h
    by_cases hover0 : c0 > (pool0.length : Int)
    · rw [if_pos hover0] at h; exact absurd h (by simp)
    rw [if_neg hover0] at h
    simp only [List.map_cons, List.nodup_cons] at hkeys
    by_cases hzero : c0 ≠ 0
    · rw [if_pos hzero] at h
      set picked := (pySample rng pool0 c0.toNat).1 with hpicked
      have hpsub : ∀ y ∈ picked, y ∈ pool0 := fun y hy => drawK_mem _ _ _ y hy
      have hpnd : picked.Nodup := drawK_nodup _ _ _ (hpn k0 pool0 hlook0)
      refine ih _ _ _ _ h hkeys.2 ?_ ?_
      · rw [List.nodup_append]
        refine ⟨hout, hpnd, ?_⟩
        intro x hx1 hx2
        exact (hinv (k0, c0) (List.mem_cons_self _ _) pool0 hlook0 x hx1) (hpsub x hx2)
      · intro p hp pool hlook x hx
        rcases List.mem_append.mp hx with hx' | hx'
        · exact hinv p (List.mem_cons_of_mem _ hp) pool hlook x hx'
        · have hkne : p.1 ≠ k0 := by
            intro hc
            apply hkeys.1
            rw [← hc]
            exact List.mem_map.mpr ⟨p, hp, rfl⟩
          intro hxpool
          exact hpd k0 p.1 pool0 pool (fun hc => hkne hc.symm) hlook0 hlook
            x (hpsub x hx') hxpool
    · rw [if_neg hzero] at h
      exact ih _ _ _ _ h hkeys.2 hout
        (fun p hp pool hlook x hx => hinv p (List.mem_cons_of_mem _ hp) pool hlook x hx)

/-- Planned counts carry exactly the ratio keys, in order. -/
lemma planBucketCounts_keys {total : Int} {ratios : List (String × ℚ)}
    {known : List String} {counts : List (String × Int)}
    (h : planBucketCounts total ratios known = .ok counts) :
    counts.map Prod.fst = ratios.map Prod.fst := by
  obtain ⟨_, _, _, _, hcounts⟩ := planBucketCounts_ok_elim h
  rw [hcounts, bumpLoop_keys, floorCounts_keys]

/-- Concrete pools for the C6 scenario: `valid` holds 20 seeds,
`string_stress` 10, `near_valid` 5. -/
def examplePools : List (String × List Seed) :=
  [("valid", (List.range 20).map (fun i => { seedId := "", ordinal := i })),
   ("string_stress", (List.range 10).map (fun i => { seedId := "", ordinal := 100 + i })),
   ("near_valid", (List.range 5).map (fun i => { seedId := "", ordinal := 200 + i }))]

/-- C6: `sample_ratio_batch` errors whenever some planned bucket count
exceeds that bucket's pool size (e.g. 35 seeds requested from a `valid`
pool of 20); otherwise it returns exactly `total` seeds drawn without
replacement, so over duplicate-free disjoint pools no element appears
twice in the batch. -/
theorem claim_C6_theorem :
    (∀ (buckets : List (String × List Seed)) (label : String) (total : Int)
        (ratios : List (String × ℚ)) (rng : Rng) (shuffle : Bool)
        (counts : List (String × Int)),
      planBucketCounts total ratios (buckets.map (·.1)) = .ok counts →
      (∃ p ∈ counts, ∃ pool, buckets.lookup p.1 = some pool ∧
        (pool.length : Int) < p.2) →
      ∃ e, sampleRatioBatch buckets label total ratios rng shuffle = .error e) ∧
    (∀ (buckets : List (String × List Seed)) (label : String) (total : Int)
        (ratios : List (String × ℚ)) (rng : Rng) (shuffle : Bool)
        (batch : List Seed) (rng' : Rng),
      sampleRatioBatch buckets label total ratios rng shuffle = .ok (batch, rng') →
      (batch.length : Int) = total ∧
        (((buckets.map (·.2)).join.Nodup ∧ (ratios.map (·.1)).Nodup) →
          batch.Nodup)) ∧
    sampleRatioBatch examplePools "json-decoder" 50
        [("valid", (7:ℚ)/10), ("string_stress", (2:ℚ)/10), ("near_valid", (1:ℚ)/10)]
        { stream := fun _ => 0 } true
      = .error (.insufficientPool "json-decoder" "valid" 35 20) := by
  refine ⟨?_, ?_, by rfl⟩
  · intro buckets label total ratios rng shuffle counts hplan hover
    obtain ⟨e, he⟩ := @samplePoolsGo_error buckets label counts [] rng hover
    refine ⟨e, ?_⟩
    unfold sampleRatioBatch
    simp only [hplan, sampleFromBucketPools, he]
  · intro buckets label total ratios rng shuffle batch rng' h
    unfold sampleRatioBatch at h
    rcases hplan : planBucketCounts total ratios (buckets.map (·.1)) with e | counts
    · rw [hplan] at h; simp at h
    simp only [hplan] at h
    rcases hsamp : sampleFromBucketPools buckets counts rng label with e | br
    · rw [hsamp] at h; simp at h
    rcases br with ⟨batch0, rng0⟩
    simp only [hsamp] at h
    unfold sampleFromBucketPools at hsamp
    have hlen0 : batch0.length = ([] : List Seed).length +
        (counts.map (fun p => p.2.toNat)).sum :=
      samplePoolsGo_length counts [] rng batch0 rng0 hsamp
    have hsum : (((counts.map (fun p => p.2.toNat)).sum : Nat) : Int) = total := by
      have hmm : counts.map (fun p : String × Int => p.2.toNat)
          = (counts.map (·.2)).map Int.toNat := by
        rw [List.map_map]
        rfl
      rw [hmm, sum_toNat_eq _ (fun x hx => by
        rcases List.mem_map.mp hx with ⟨p, hp, rfl⟩
        exact planBucketCounts_nonneg hplan p hp)]
      exact planBucketCounts_sum hplan
    have hlenInt : (batch0.length : Int) = total := by
      have h00 : ([] : List Seed).length + (counts.map (fun p : String × Int => p.2.toNat)).sum
          = (counts.map (fun p : String × Int => p.2.toNat)).sum := by simp
      rw [hlen0, h00]
      exact hsum
    have hnd0 : ((buckets.map (·.2)).join.Nodup ∧ (ratios.map (·.1)).Nodup) →
        batch0.Nodup := by
      rintro ⟨hjoin, hrkeys⟩
      obtain ⟨hpn, hpd⟩ := lookup_nodup_disjoint buckets hjoin
      refine samplePoolsGo_nodup hpn hpd counts [] rng batch0 rng0 hsamp ?_
        List.nodup_nil (by intro p _ pool _ x hx; simp at hx)
      rw [planBucketCounts_keys hplan]
      exact hrkeys
    by_cases hsh : shuffle = true ∧ 1 < batch0.length
    · rw [if_pos hsh] at h
      have hperm : ((pyShuffle rng0 batch0).1).Perm batch0 :=
        drawK_perm batch0.length rng0 batch0 rfl
      have hpair : pyShuffle rng0 batch0 = (batch, rng') := (Except.ok.injEq _ _).mp h
      have hb : (pyShuffle rng0 batch0).1 = batch := congrArg Prod.fst hpair
      constructor
      · rw [← hb, hperm.length_eq]; exact hlenInt
      · intro hnd
        rw [← hb]
        exact (hperm.nodup_iff).mpr (hnd0 hnd)
    · rw [if_neg hsh] at h
      have hpair : (batch0, rng0) = (batch, rng') := (Except.ok.injEq _ _).mp h
      have hb : batch0 = batch := congrArg Prod.fst hpair
      rw [← hb]
      exact ⟨hlenInt, hnd0⟩

/-- Witness for C6: the success branch on a one-seed pool. -/
theorem claim_C6_witness :
    (([({ seedId := "s1" } : Seed)].length : Int) = 1) ∧
      ((([("b1", [({ seedId := "s1" } : Seed)])].map (·.2)).join.Nodup ∧
        ([(("b1" : String), (1 : ℚ))].map (·.1)).Nodup) →
        [({ seedId := "s1" } : Seed)].Nodup) :=
  claim_C6_theorem.2.1 [("b1", [{ seedId := "s1" }])] "t" 1 [("b1", (1:ℚ))]
    { stream := fun _ => 0 } true [{ seedId := "s1" }]
    { stream := fun _ => 0, cursor := 1 } (by rfl)

end Corpus

/-! ## Interestingness scorer (`src/isinteresting/versions/base.py`) -/

namespace Score

/-- A Python value as the scorer sees it: JSON-ish dynamic data.
Dicts are insertion-ordered association lists with distinct keys. -/
inductive PyVal where
  | none
  | bool (b : Bool)
  | int (n : Int)
  | str (s : String)
  | list (l : List PyVal)
  | dict (l : List (String × PyVal))

/-- Python `==` on the dynamic values (structural). -/
def PyVal.beq : PyVal → PyVal → Bool
  | .none, .none => true
  | .bool a, .bool b => a == b
  | .int a, .int b => a == b
  | .str a, .str b => a == b
  | .list a, .list b => beqList a b
  | .dict a, .dict b => beqDict a b
  | _, _ => false
where
  beqList : List PyVal → List PyVal → Bool
    | [], [] => true
    | a :: as, b :: bs => PyVal.beq a b && beqList as bs
    | _, _ => false
  beqDict : List (String × PyVal) → List (String × PyVal) → Bool
    | [], [] => true
    | (k1, v1) :: as, (k2, v2) :: bs => k1 == k2 && PyVal.beq v1 v2 && beqDict as bs
    | _, _ => false

/-- Is the value Python `None`? -/
def PyVal.isNone : PyVal → Bool
  | .none => true
  | _ => false

/-- `_as_mapping`: the value itself when it is a mapping, else `None`. -/
def asMapping : PyVal → Option (List (String × PyVal))
  | .dict l => some l
  | _ => Option.none

/-- Python `d.get(k)`: the value, or `None` when absent. -/
def dictGet (d : List (String × PyVal)) (k : String) : PyVal :=
  match d with
  | [] => .none
  | (k', v) :: rest => if k' = k then v else dictGet rest k

/-- Python `d.get(k, default)`. -/
def dictGetD (d : List (String × PyVal)) (k : String) (dflt : PyVal) : PyVal :=
  match d with
  | [] => dflt
  | (k', v) :: rest => if k' = k then v else dictGetD rest k dflt

/-- Python truthiness of the values the scorer tests. -/
def pyFalsy : PyVal → Bool
  | .none => true
  | .bool b => !b
  | .int n => n == 0
  | .str s => s == ""
  | .list l => l.isEmpty
  | .dict l => l.isEmpty

/-- `str.strip()` (whitespace per `Char.isWhitespace`, matching Python's
default strip set on the inputs at issue). -/
def pyStrip (s : String) : String :=
  let l := s.toList.dropWhile Char.isWhitespace
  String.mk ((l.reverse.dropWhile Char.isWhitespace).reverse)

/-- `str.lower()` (ASCII case folding; the statuses compared are ASCII). -/
def pyLower (s : String) : String :=
  String.mk (s.toList.map Char.toLower)

/-- `_normalize_status`: non-strings normalize to `""`, strings are
stripped and lower-cased. -/
def normalizeStatus : PyVal → String
  | .str s => pyLower (pyStrip s)
  | _ => ""

/-- Python `int(x)` on the dynamic values that can reach the scorer's
conversions: ints pass through, booleans become 0/1, decimal strings
parse (optional sign), everything else raises (`none`). -/
def pyToInt : PyVal → Option Int
  | .int n => some n
  | .bool b => some (if b then 1 else 0)
  | .str s =>
    let t := (pyStrip s).toList
    let (sign, digits) :=
      match t with
      | '-' :: rest => ((-1 : Int), rest)
      | '+' :: rest => ((1 : Int), rest)
      | _ => ((1 : Int), t)
    if digits ≠ [] ∧ digits.all Char.isDigit then
      some (sign * (digits.foldl (fun acc c => acc * 10 + (c.toNat - 48)) 0 : Nat))
    else Option.none
  | _ => Option.none

/-- Rendering used for `str(file_name)`; file names are strings in the
repository's data, so the remaining cases carry an opaque tag. -/
def pyStr : PyVal → String
  | .str s => s
  | .none => "None"
  | .bool true => "True"
  | .bool false => "False"
  | _ => "<obj>"

/-- `_bug_signatures_equal`. -/
def bugSignaturesEqual (a b : Option (List (String × PyVal))) : Bool :=
  match a, b with
  | Option.none, Option.none => true
  | Option.none, some _ => false
  | some _, Option.none => false
  | some ma, some mb =>
    ["type", "exception", "message", "file", "line"].all
      (fun k => PyVal.beq (dictGet ma k) (dictGet mb k))

/-- `_status_score`. -/
def statusScore (closedStatus : String) : ℚ :=
  if closedStatus = "" then 0
  else if closedStatus = "bug" ∨ closedStatus = "crash" then 9/10
  else if closedStatus = "timeout" then 7/10
  else if closedStatus = "error" then 6/10
  else 0

/-- The bug-class statuses `{bug, crash, timeout, error}`. -/
def isBugClass (s : String) : Bool :=
  s == "bug" || s == "crash" || s == "timeout" || s == "error"

/-- Falsiness of the optional open status (`None` or `""`). -/
def optStatusFalsy : Option String → Bool
  | Option.none => true
  | some s => s == ""

/-- Falsiness of the optional open bug mapping (`None` or `{}`). -/
def optBugFalsy : Option (List (String × PyVal)) → Bool
  | Option.none => true
  | some l => l.isEmpty

/-- `_differential_score`.  `open_status`/`open_bug` are `None` when no
oracle result is present; falsiness of `""` and of empty mappings follows
Python. -/
def differentialScore (closedStatus : String) (openStatus : Option String)
    (closedBug openBug : Option (List (String × PyVal))) : ℚ :=
  if optStatusFalsy openStatus && optBugFalsy openBug then 0
  else
    let openStatusStr := openStatus.getD ""
    if isBugClass closedStatus ∧ openStatusStr = "ok" then 1
    else if closedStatus ≠ openStatusStr then 3/4
    else if (closedStatus = "bug" ∨ closedStatus = "crash" ∨ closedStatus = "error") ∧
        ¬ bugSignaturesEqual closedBug openBug then 1/2
    else 0

/-- `_coverage_score`. -/
def coverageScore (coveredBranches missingBranches : PyVal) : ℚ :=
  if coveredBranches.isNone || missingBranches.isNone then 0
  else
    match pyToInt coveredBranches, pyToInt missingBranches with
    | some covered, some missing =>
      if covered < 0 ∨ missing < 0 then 0
      else
        let total := covered + missing
        if total ≤ 0 then 0
        else
          let ratio : ℚ := (covered : ℚ) / (total : ℚ)
          max 0 (min ratio 1)
    | _, _ => 0

/-- Add an edge to the set (modelled as a duplicate-free list in first
insertion order). -/
def addEdge (l : List (String × Int × Int)) (e : String × Int × Int) :
    List (String × Int × Int) :=
  if e ∈ l then l else l ++ [e]

/-- The covered arcs of one `branch_details_by_file` entry. -/
def arcsOfEntry (fileEntry : PyVal) : List (String × Int × Int) :=
  match asMapping fileEntry with
  | Option.none => []
  | some m =>
    if m.isEmpty then []
    else
      let fileName := dictGet m "file"
      if pyFalsy fileName then []
      else
        match dictGet m "covered_branches" with
        | .list arcs =>
          arcs.foldl
            (fun acc arc =>
              match asMapping arc with
              | Option.none => acc
              | some arcMap =>
                match pyToInt (dictGetD arcMap "from_line" (.int 0)),
                    pyToInt (dictGetD arcMap "to_line" (.int 0)) with
                | some fromLine, some toLine =>
                  if fromLine ≤ 0 then acc
                  else addEdge acc (pyStr fileName, fromLine, toLine)
                | _, _ => acc)
            []
        | _ => []

/-- `_get_covered_edges`: the set of `(file, from_line, to_line)` covered
arcs of the closed result. -/
def getCoveredEdges (closed : List (String × PyVal)) : List (String × Int × Int) :=
  match dictGet closed "branch_details_by_file" with
  | .list entries =>
    entries.foldl (fun acc fe => (arcsOfEntry fe).foldl addEdge acc) []
  | _ => []

/-- `_new_edges_score` over the `seen_branches` rows. -/
def newEdgesScore (seen : List (String × Int × Int))
    (edges : List (String × Int × Int)) : ℚ :=
  if edges.isEmpty then 0
  else
    let newEdges := edges.filter (fun e => e ∉ seen)
    let newRatio : ℚ := (newEdges.length : ℚ) / (edges.length : ℚ)
    if newRatio ≤ 0 then 0
    else 1/2 + 1/2 * min newRatio 1

/-- A row of the `runs` table, restricted to the columns the rare-bug
query consults. -/
structure RunRow where
  target : String
  status : String
  exception : Option String := Option.none
  file : Option String := Option.none
  line : Option Int := Option.none
deriving DecidableEq, Repr

/-- The SQL match of `_rare_bug_score`'s `COUNT(*)` query for one row. -/
def rareBugRowMatches (target : String) (exc file_ : String) (line : Option Int)
    (row : RunRow) : Bool :=
  row.target == target &&
    isBugClass row.status &&
    (row.exception.getD "" == exc) &&
    (row.file.getD "" == file_) &&
    (match line, row.line with
     | some l, some rl => rl == l
     | Option.none, Option.none => true
     | _, _ => false)

/-- A string extracted from a dynamic value (the bug-signature fields are
strings in practice). -/
def pyStrOf : PyVal → String
  | .str s => s
  | v => pyStr v

/-- `_rare_bug_score`. -/
def rareBugScore (runs : List RunRow) (closedStatus : String)
    (closedBug : Option (List (String × PyVal))) (target : String) : ℚ :=
  if ¬ isBugClass closedStatus then 0
  else
    match closedBug with
    | Option.none => 0
    | some bug =>
      if bug.isEmpty then 0
      else
        let excRaw := dictGet bug "exception"
        let exc := if pyFalsy excRaw then "" else pyStrOf excRaw
        let fileRaw := dictGet bug "file"
        let file_ := if pyFalsy fileRaw then "" else pyStrOf fileRaw
        let line : Option Int :=
          match dictGet bug "line" with
          | .none => Option.none
          | v => pyToInt v
        let count := (runs.filter (rareBugRowMatches target exc file_ line)).length
        1 / (1 + (count : ℚ))

/-- The run store as the scorer reads it: the `seen_branches` rows and the
`runs` rows.  `some` means the database path exists and connects. -/
structure Store where
  seenBranches : List (String × Int × Int)
  runs : List RunRow

/-- `clamp(x, 0, 1)` as the code writes it: `max(0.0, min(1.0, x))`. -/
def clamp01 (q : ℚ) : ℚ := max 0 (min 1 q)

/-- `compute_interestingness` (src/isinteresting/versions/base.py 208–277). -/
def computeInterestingness (result : PyVal) (store : Option Store)
    (target : String) : ℚ :=
  match asMapping result with
  | Option.none => 0
  | some top =>
    match asMapping (dictGet top "closed_result") with
    | Option.none => 0
    | some closed =>
      let openRes := asMapping (dictGet top "open_result")
      let closedStatus := normalizeStatus (dictGet closed "status")
      let openStatus : Option String :=
        match openRes with
        | some o => if o.isEmpty then Option.none
            else some (normalizeStatus (dictGet o "status"))
        | Option.none => Option.none
      let closedBug := asMapping (dictGet closed "bug_signature")
      let openBug : Option (List (String × PyVal)) :=
        match openRes with
        | some o => if o.isEmpty then Option.none
            else asMapping (dictGet o "bug_signature")
        | Option.none => Option.none
      let sStatus := statusScore closedStatus
      let sDiff := differentialScore closedStatus openStatus closedBug openBug
      let sCov := coverageScore (dictGet closed "covered_branches")
        (dictGet closed "missing_branches")
      let score := max (max (max sStatus sDiff) sCov) 0
      match store with
      | some st =>
        let edges := getCoveredEdges closed
        let sNew := newEdgesScore st.seenBranches edges
        let sRare := rareBugScore st.runs closedStatus closedBug target
        let score2 := score * max (max (max score sNew) (sRare * (9/10))) 0
        clamp01 score2
      | Option.none => clamp01 score

lemma clamp01_bounds (q : ℚ) : 0 ≤ clamp01 q ∧ clamp01 q ≤ 1 := by
  unfold clamp01
  exact ⟨le_max_left _ _, max_le (by norm_num) (min_le_left _ _)⟩

/-- C1: for every result whose `closed_result` is a mapping,
`compute_interestingness` returns `clamp(S·max(S, s_new_edges,
0.9·s_rare_bug, 0), 0, 1)` with the store and `clamp(S, 0, 1)` without,
where `S = max(s_status, s_diff, s_cov, 0)` and `s_status` is 0.9 for
bug/crash, 0.7 for timeout, 0.6 for error, else 0; the concrete scenario
(closed bug `{exception: "X", file: "f", line: 1}`, open ok, covered=10,
missing=0, empty store) scores exactly 1.0; and the result always lies in
`[0, 1]`. -/
theorem claim_C1_theorem :
    (∀ (result : PyVal) (top closed : List (String × PyVal)) (target : String)
        (st : Option Store),
      asMapping result = some top →
      asMapping (dictGet top "closed_result") = some closed →
      computeInterestingness result st target =
        (let openRes := asMapping (dictGet top "open_result")
         let closedStatus := normalizeStatus (dictGet closed "status")
         let openStatus : Option String :=
           match openRes with
           | some o => if o.isEmpty then Option.none
               else some (normalizeStatus (dictGet o "status"))
           | Option.none => Option.none
         let closedBug := asMapping (dictGet closed "bug_signature")
         let openBug : Option (List (String × PyVal)) :=
           match openRes with
           | some o => if o.isEmpty then Option.none
               else asMapping (dictGet o "bug_signature")
           | Option.none => Option.none
         let S : ℚ := max (max (max (statusScore closedStatus)
             (differentialScore closedStatus openStatus closedBug openBug))
             (coverageScore (dictGet closed "covered_branches")
               (dictGet closed "missing_branches"))) 0
         match st with
         | some s => clamp01 (S * max (max (max S
             (newEdgesScore s.seenBranches (getCoveredEdges closed)))
             ((9/10) * rareBugScore s.runs closedStatus closedBug target)) 0)
         | Option.none => clamp01 S)) ∧
    (∀ s : String, statusScore s =
      if s = "bug" ∨ s = "crash" then 9/10
      else if s = "timeout" then 7/10
      else if s = "error" then 6/10
      else 0) ∧
    computeInterestingness
      (.dict [("closed_result", .dict [("status", .str "bug"),
          ("bug_signature", .dict [("exception", .str "X"), ("file", .str "f"),
            ("line", .int 1)]),
          ("covered_branches", .int 10), ("missing_branches", .int 0)]),
        ("open_result", .dict [("status", .str "ok")])])
      (some { seenBranches := [], runs := [] }) "t" = 1 ∧
    (∀ (result : PyVal) (st : Option Store) (target : String),
      0 ≤ computeInterestingness result st target ∧
      computeInterestingness result st target ≤ 1) := by
  refine ⟨?_, ?_, by decide, ?_⟩
  · intro result top closed target st h1 h2
    unfold computeInterestingness
    simp only [h1, h2]
    cases st with
    | none => rfl
    | some s =>
      simp only []
      rw [mul_comm ((9:ℚ)/10)
        (rareBugScore s.runs (normalizeStatus (dictGet closed "status"))
          (asMapping (dictGet closed "bug_signature")) target)]
  · intro s
    unfold statusScore
    by_cases h0 : s = ""
    · subst h0; simp
    · rw [if_neg h0]
  · intro result st target
    unfold computeInterestingness
    rcases hm : asMapping result with _ | top
    · simp only [hm]; norm_num
    simp only [hm]
    rcases hc : asMapping (dictGet top "closed_result") with _ | closed
    · simp only [hc]; norm_num
    simp only [hc]
    cases st with
    | none => exact clamp01_bounds _
    | some s => exact clamp01_bounds _

/-- Witness for C1: the formula instantiated at a minimal result with an
empty closed mapping and no store. -/
theorem claim_C1_witness :
    computeInterestingness (.dict [("closed_result", .dict [])]) Option.none "t"
      = clamp01 0 :=
  claim_C1_theorem.1 (.dict [("closed_result", .dict [])])
    [("closed_result", .dict [])] [] "t" Option.none rfl rfl

end Score

/-! ## Byte-level mutators (`src/mutator/mutator.py`) -/

namespace Mut

open Corpus (Rng)

/-- A Python byte buffer as passed to a mutator: its contents and whether
the caller handed in a `bytearray` (mutable, passed by reference) or
`bytes` (immutable). -/
structure PyBuf where
  data : List Nat
  isBytearray : Bool
deriving Repr, DecidableEq

/-- Result of one mutator call: the returned `bytes`, the contents of the
caller's buffer after the call (`_as_bytearray` returns the argument
itself when it is already a `bytearray`, so in-place edits alias it), and
the advanced RNG. -/
structure MutResult where
  output : List Nat
  inputAfter : List Nat
  rng : Rng

/-- The fixed interesting byte set. -/
def interestingByteValues : List Nat := [0x00, 0x01, 0x0A, 0x0D, 0x20, 0x7F, 0x80, 0xFE, 0xFF]

/-- `bit_flip`. -/
def bitFlip (rng : Rng) (buf : PyBuf) : MutResult :=
  if buf.data.isEmpty then { output := [], inputAfter := buf.data, rng := rng }
  else
    let (i, rng1) := rng.draw buf.data.length
    let (bit, rng2) := rng1.draw 8
    let mutated := buf.data.set i (Nat.xor (buf.data.getD i 0) (1 <<< bit))
    { output := mutated,
      inputAfter := if buf.isBytearray then mutated else buf.data,
      rng := rng2 }

/-- `arithmetic_mutation`: add one of `{-35, -1, 1, 35}` modulo 256. -/
def arithmeticMutation (rng : Rng) (buf : PyBuf) : MutResult :=
  if buf.data.isEmpty then { output := [], inputAfter := buf.data, rng := rng }
  else
    let (i, rng1) := rng.draw buf.data.length
    let (d, rng2) := rng1.draw 4
    let delta : Int := [(-35 : Int), -1, 1, 35].getD d 0
    let newByte : Nat := (((buf.data.getD i 0 : Int) + delta) % 256).toNat
    let mutated := buf.data.set i newByte
    { output := mutated,
      inputAfter := if buf.isBytearray then mutated else buf.data,
      rng := rng2 }

/-- `interesting_value_mutation`. -/
def interestingValueMutation (rng : Rng) (buf : PyBuf) : MutResult :=
  if buf.data.isEmpty then
    let (c, rng1) := rng.draw interestingByteValues.length
    { output := [interestingByteValues.getD c 0], inputAfter := buf.data, rng := rng1 }
  else
    let (i, rng1) := rng.draw buf.data.length
    let (c, rng2) := rng1.draw interestingByteValues.length
    let mutated := buf.data.set i (interestingByteValues.getD c 0)
    { output := mutated,
      inputAfter := if buf.isBytearray then mutated else buf.data,
      rng := rng2 }

/-- `delete_block_mutation`: inputs shorter than 2 bytes are returned
unchanged, else a random non-empty block is removed. -/
def deleteBlockMutation (rng : Rng) (buf : PyBuf) : MutResult :=
  if buf.data.length < 2 then { output := buf.data, inputAfter := buf.data, rng := rng }
  else
    let (start, rng1) := rng.draw (buf.data.length - 1)
    let maxLen := buf.data.length - start
    let (r, rng2) := rng1.draw maxLen
    let blockLen := 1 + r
    let mutated := buf.data.take start ++ buf.data.drop (start + blockLen)
    { output := mutated,
      inputAfter := if buf.isBytearray then mutated else buf.data,
      rng := rng2 }

/-- `clone_block_mutation`: a random block is re-inserted at a random
position. -/
def cloneBlockMutation (rng : Rng) (buf : PyBuf) : MutResult :=
  if buf.data.isEmpty then { output := [], inputAfter := buf.data, rng := rng }
  else
    let (start, rng1) := rng.draw buf.data.length
    let maxLen := buf.data.length - start
    let (r, rng2) := rng1.draw maxLen
    let blockLen := 1 + r
    let block := (buf.data.drop start).take blockLen
    let (insertAt, rng3) := rng2.draw (buf.data.length + 1)
    let mutated := buf.data.take insertAt ++ block ++ buf.data.drop insertAt
    { output := mutated,
      inputAfter := if buf.isBytearray then mutated else buf.data,
      rng := rng3 }

/-- C9: the claim says the mutators never modify the input buffer "for
every input value including inputs that are already bytearray objects" —
refuted: `_as_bytearray` returns a `bytearray` argument itself, so
`bit_flip` on the one-byte bytearray `[0]` (draws index 0, bit 0) leaves
the caller's buffer holding `[1]`. -/
theorem claim_C9_counterexample :
    (bitFlip { stream := fun _ => 0 } { data := [0], isBytearray := true }).inputAfter
        = [1] ∧
      [1] ≠ [0] := ⟨rfl, by decide⟩

/-- C9 (amended): each byte-level mutator returns a fresh `bytes` buffer
and never modifies an input passed as immutable `bytes`; an input passed
as a `bytearray` is aliased by `_as_bytearray` and is mutated in place by
the content-changing paths. -/
theorem claim_C9_theorem (rng : Rng) (data : List Nat) :
    (bitFlip rng { data := data, isBytearray := false }).inputAfter = data ∧
    (arithmeticMutation rng { data := data, isBytearray := false }).inputAfter = data ∧
    (interestingValueMutation rng { data := data, isBytearray := false }).inputAfter = data ∧
    (deleteBlockMutation rng { data := data, isBytearray := false }).inputAfter = data ∧
    (cloneBlockMutation rng { data := data, isBytearray := false }).inputAfter = data := by
  unfold bitFlip arithmeticMutation interestingValueMutation deleteBlockMutation
    cloneBlockMutation
  refine ⟨?_, ?_, ?_, ?_, ?_⟩ <;>
    (split_ifs <;> first | rfl | exact False.elim (by assumption))

end Mut

/-! ## Grammar generation (`src/mutator/mutator.py`) -/

namespace Gram

open Corpus (Rng)

/-- A grammar: start symbol, recursive symbols, rules (symbol →
productions). -/
structure Grammar where
  start : String
  recursiveSymbols : List String
  rules : List (String × List String)

/-- A fragment of a production as the regex `<[^<>]+>` splits it:
literal text or a non-terminal reference (brackets included). -/
inductive Tok where
  | lit (s : String)
  | nt (s : String)
deriving Repr, DecidableEq

lemma dropWhile_length_le {α : Type} (p : α → Bool) :
    ∀ l : List α, (l.dropWhile p).length ≤ l.length := by
  intro l
  induction l with
  | nil => simp
  | cons a t ih =>
    rw [List.dropWhile_cons]
    split
    · exact le_trans ih (by simp)
    · simp

/-- Attempt the regex match at a position just after `<`: a non-empty run
of characters other than `<`/`>` terminated by `>`. -/
def tryNT (rest : List Char) : Option (String × List Char) :=
  match rest.dropWhile (fun c => c ≠ '<' ∧ c ≠ '>') with
  | c :: tail =>
    if c = '>' ∧ ¬ (rest.takeWhile (fun c => c ≠ '<' ∧ c ≠ '>')).isEmpty
    then some (String.mk (rest.takeWhile (fun c => c ≠ '<' ∧ c ≠ '>')), tail)
    else Option.none
  | [] => Option.none

lemma tryNT_length {rest : List Char} {br : String × List Char}
    (h : tryNT rest = some br) : br.2.length < rest.length + 1 := by
  unfold tryNT at h
  split at h
  next c tail heq =>
    split at h
    · have hbr := (Option.some.injEq _ _).mp h
      have htail : br.2 = tail := by rw [← hbr]
      have hle : (c :: tail).length ≤ rest.length := by
        rw [← heq]
        exact dropWhile_length_le _ rest
      rw [htail]
      simp only [List.length_cons] at hle
      omega
    · exact absurd h (by simp)
  next heq => exact absurd h (by simp)

/-- Fuelled leftmost-match scan of the regex `<[^<>]+>`.  The fuel only
bounds the recursion depth; the scan consumes at least one character per
step, so fuel equal to the input length never runs out. -/
def tokenizeAux : Nat → List Char → List Tok
  | _, [] => []
  | 0, _ :: _ => []
  | Nat.succ fuel, '<' :: rest =>
    match tryNT rest with
    | some br => Tok.nt ("<" ++ br.1 ++ ">") :: tokenizeAux fuel br.2
    | Option.none => Tok.lit "<" :: tokenizeAux fuel rest
  | Nat.succ fuel, c :: rest => Tok.lit (String.mk [c]) :: tokenizeAux fuel rest

/-- Leftmost-match scan of the regex `<[^<>]+>` over a production,
splitting it into literal characters and non-terminal references
(`re.finditer` semantics). -/
def tokenize (l : List Char) : List Tok := tokenizeAux l.length l

/-- The non-terminal references among a token list. -/
def ntToks (toks : List Tok) : List String :=
  toks.filterMap (fun t => match t with | .nt s => some s | .lit _ => Option.none)

/-- `_NON_TERMINAL_PATTERN.findall`: the non-terminals of a production. -/
def ntsIn (production : String) : List String :=
  ntToks (tokenize production.toList)

/-- `rng.choice`: an oracle pick from a non-empty list (raises on an
empty one). -/
def rngChoice {α : Type} (rng : Rng) (l : List α) : Option (α × Rng) :=
  match l with
  | [] => Option.none
  | x :: xs =>
    let (i, rng') := rng.draw (x :: xs).length
    some ((x :: xs).getD i x, rng')

/-- `safe_productions or productions`: the productions free of recursive
non-terminals, falling back to the full list when none remains. -/
def safeOr (recursiveSymbols : List String) (prods : List String) : List String :=
  if (prods.filter
      (fun option => !((ntsIn option).any (fun t => decide (t ∈ recursiveSymbols))))).isEmpty
  then prods
  else prods.filter
    (fun option => !((ntsIn option).any (fun t => decide (t ∈ recursiveSymbols))))

/-- `_pick_production` (src/mutator/mutator.py 74–92). -/
def pickProduction (recursiveSymbols : List String) (symbol : String)
    (prods : List String) (depth maxDepth : Nat) (rng : Rng) :
    Option (String × Rng) :=
  if depth < maxDepth ∨ symbol ∉ recursiveSymbols then rngChoice rng prods
  else rngChoice rng (safeOr recursiveSymbols prods)

/-- The production set a symbol draws from at depth ≥ `max_depth`. -/
def atMaxChoices (recursiveSymbols : List String) (symbol : String)
    (prods : List String) : List String :=
  if symbol ∈ recursiveSymbols then safeOr recursiveSymbols prods else prods

/-- Expansion of a split production given the expander `f` for
sub-symbols: literals pass through, each non-terminal expands at
`depth + 1`, results concatenate in order (the `parts` joining of
`_expand_symbol`). -/
def expandToks (f : Nat → String → Rng → Option (String × Rng)) (depth : Nat) :
    List Tok → Rng → Option (String × Rng)
  | [], rng => some ("", rng)
  | .lit s :: rest, rng =>
    match expandToks f depth rest rng with
    | Option.none => Option.none
    | some (t, r) => some (s ++ t, r)
  | .nt t :: rest, rng =>
    match f (depth + 1) t rng with
    | Option.none => Option.none
    | some (s1, rng1) =>
      match expandToks f depth rest rng1 with
      | Option.none => Option.none
      | some (s2, rng2) => some (s1 ++ s2, rng2)

/-- `_expand_symbol` (src/mutator/mutator.py 95–134), fuelled: `none`
only when the fuel runs out (or `rng.choice` is handed an empty
production list). -/
def expandSymbol (g : Grammar) (maxDepth : Nat) :
    Nat → Nat → String → Rng → Option (String × Rng)
  | 0, _, _, _ => Option.none
  | Nat.succ fuel, depth, symbol, rng =>
    match g.rules.lookup symbol with
    | Option.none => some (symbol, rng)
    | some prods =>
      match pickProduction g.recursiveSymbols symbol prods depth maxDepth rng with
      | Option.none => Option.none
      | some (production, rng1) =>
        expandToks (expandSymbol g maxDepth fuel) depth
          (tokenize production.toList) rng1

/-- `generate_from_grammar`, fuelled (the Python function carries no
fuel; claim C10 is that a uniform fuel bound suffices, i.e. that the
recursion terminates). -/
def generateFromGrammar (g : Grammar) (maxDepth : Nat) (rng : Rng) (fuel : Nat) :
    Option (String × Rng) :=
  if maxDepth < 1 then Option.none
  else expandSymbol g maxDepth fuel 0 g.start rng

/-- `JSON_GRAMMAR`. -/
def JSON_GRAMMAR : Grammar :=
  { start := "<json>",
    recursiveSymbols := ["<object>", "<array>", "<members>", "<elements>", "<value>"],
    rules :=
      [("<json>", ["<value>"]),
       ("<value>", ["<object>", "<array>", "<string>", "<number>", "true", "false", "null"]),
       ("<object>", ["\x7b\x7d", "\x7b<members>\x7d"]),
       ("<members>", ["<pair>", "<pair>,<members>"]),
       ("<pair>", ["<string>:<value>"]),
       ("<array>", ["[]", "[<elements>]"]),
       ("<elements>", ["<value>", "<value>,<elements>"]),
       ("<string>", ["\"a\"", "\"b\"", "\"json\"", "\"ip\"", "\"\\u0030\"", "\"x y\"",
        "\"long_key_123\""]),
       ("<number>", ["0", "-1", "1", "42", "3.14", "-0.001", "1e10", "-2E-2"])] }

/-- `IPV4_GRAMMAR`. -/
def IPV4_GRAMMAR : Grammar :=
  { start := "<ipv4_input>",
    recursiveSymbols := [],
    rules :=
      [("<ipv4_input>", ["<ipv4>", "<ipv4>/<prefix4>"]),
       ("<ipv4>", ["<octet>.<octet>.<octet>.<octet>"]),
       ("<octet>", ["0", "1", "10", "127", "192", "223", "254", "255"]),
       ("<prefix4>", ["0", "8", "16", "24", "30", "32"])] }

/-- `IPV6_GRAMMAR`. -/
def IPV6_GRAMMAR : Grammar :=
  { start := "<ipv6_input>",
    recursiveSymbols := [],
    rules :=
      [("<ipv6_input>", ["<ipv6>", "<ipv6>/<prefix6>"]),
       ("<ipv6>", ["<h>:<h>:<h>:<h>:<h>:<h>:<h>:<h>", "<h>::<h>", "::1", "::",
        "fe80::<h>", "2001:db8::<h>:<h>"]),
       ("<h>", ["0", "1", "a", "f", "10", "ff", "0abc", "ffff"]),
       ("<prefix6>", ["0", "32", "48", "64", "96", "128"])] }

/-- `IP_GRAMMAR`: composite of the IPv4 and IPv6 rules (`**` dict merge,
no key collisions). -/
def IP_GRAMMAR : Grammar :=
  { start := "<ip>",
    recursiveSymbols := [],
    rules := ("<ip>", ["<ipv4_input>", "<ipv6_input>"]) ::
      IPV4_GRAMMAR.rules ++ IPV6_GRAMMAR.rules }

lemma lookup_mem {β : Type} :
    ∀ {l : List (String × β)} {k : String} {v : β},
      l.lookup k = some v → (k, v) ∈ l := by
  intro l
  induction l with
  | nil => intro k v h; simp [List.lookup] at h
  | cons hd tl ih =>
    intro k v h
    rcases hd with ⟨k0, v0⟩
    simp only [List.lookup] at h
    by_cases hk : (k == k0) = true
    · simp only [hk] at h
      cases h
      rw [beq_iff_eq] at hk
      subst hk
      exact List.mem_cons_self _ _
    · rw [Bool.not_eq_true] at hk
      simp only [hk] at h
      exact List.mem_cons_of_mem _ (ih h)

lemma rngChoice_mem {α : Type} {rng : Rng} {l : List α} {xr : α × Rng}
    (h : rngChoice rng l = some xr) : xr.1 ∈ l := by
  cases l with
  | nil => simp [rngChoice] at h
  | cons x xs =>
    simp only [rngChoice] at h
    have hx : xr.1 = (x :: xs).getD (rng.draw (x :: xs).length).1 x := by
      have := (Option.some.injEq _ _).mp h
      rw [← this]
    rw [hx]
    unfold List.getD
    rcases hg : (x :: xs).get? (rng.draw (x :: xs).length).1 with _ | y
    · simp [hg]
    · simp only [hg, Option.getD_some]
      exact List.get?_mem hg

lemma rngChoice_isSome {α : Type} (rng : Rng) {l : List α} (h : l ≠ []) :
    (rngChoice rng l).isSome := by
  cases l with
  | nil => exact absurd rfl h
  | cons x xs => simp [rngChoice]

lemma safeOr_ne_nil {recursiveSymbols prods : List String} (h : prods ≠ []) :
    safeOr recursiveSymbols prods ≠ [] := by
  unfold safeOr
  split
  · exact h
  · rename_i hne
    intro hnil
    rw [hnil] at hne
    simp at hne

lemma safeOr_subset {recursiveSymbols prods : List String} :
    ∀ p ∈ safeOr recursiveSymbols prods, p ∈ prods := by
  intro p hp
  unfold safeOr at hp
  split at hp
  · exact hp
  · exact List.mem_of_mem_filter hp

lemma pickProduction_isSome (recursiveSymbols : List String) (symbol : String)
    {prods : List String} (depth maxDepth : Nat) (rng : Rng) (h : prods ≠ []) :
    (pickProduction recursiveSymbols symbol prods depth maxDepth rng).isSome := by
  unfold pickProduction
  split
  · exact rngChoice_isSome rng h
  · exact rngChoice_isSome rng (safeOr_ne_nil h)

lemma pickProduction_mem {recursiveSymbols : List String} {symbol : String}
    {prods : List String} {depth maxDepth : Nat} {rng : Rng} {pr : String × Rng}
    (h : pickProduction recursiveSymbols symbol prods depth maxDepth rng = some pr) :
    pr.1 ∈ prods ∧
      (¬ depth < maxDepth →
        pr.1 ∈ atMaxChoices recursiveSymbols symbol prods) := by
  unfold pickProduction at h
  split at h
  · rename_i hcond
    refine ⟨rngChoice_mem h, ?_⟩
    intro hd
    rcases hcond with hlt | hnotin
    · exact absurd hlt hd
    · unfold atMaxChoices
      rw [if_neg hnotin]
      exact rngChoice_mem h
  · rename_i hcond
    push_neg at hcond
    refine ⟨safeOr_subset _ (rngChoice_mem h), ?_⟩
    intro _
    unfold atMaxChoices
    rw [if_pos hcond.2]
    exact rngChoice_mem h

lemma expandToks_isSome (g : Grammar) (maxDepth fuel : Nat) (depth : Nat) :
    ∀ (toks : List Tok) (rng : Rng),
      (∀ t ∈ ntToks toks, ∀ r : Rng,
        (expandSymbol g maxDepth fuel (depth + 1) t r).isSome) →
      (expandToks (expandSymbol g maxDepth fuel) depth toks rng).isSome := by
  intro toks
  induction toks with
  | nil => intro rng _; simp [expandToks]
  | cons hd rest ih =>
    intro rng hf
    cases hd with
    | lit s =>
      have hrest := ih rng (fun t ht r => hf t (by simpa [ntToks] using ht) r)
      simp only [expandToks]
      rcases hr : expandToks (expandSymbol g maxDepth fuel) depth rest rng with _ | tr
      · rw [hr] at hrest; simp at hrest
      · simp [hr]
    | nt t =>
      have ht := hf t (by simp [ntToks]) rng
      simp only [expandToks]
      rcases h1 : expandSymbol g maxDepth fuel (depth + 1) t rng with _ | sr
      · rw [h1] at ht; simp at ht
      · rcases sr with ⟨s1, rng1⟩
        have hrest := ih rng1 (fun u hu r => hf u (by simpa [ntToks] using Or.inr hu) r)
        rcases hr : expandToks (expandSymbol g maxDepth fuel) depth rest rng1 with _ | tr
        · rw [hr] at hrest; simp at hrest
        · simp only [h1, hr]
          rcases tr with ⟨s2, rng2⟩
          simp

/-- Fuel sufficiency: under a ranking `μ` that (i) bounds every rule's
non-terminals below `K`, (ii) strictly decreases into every production a
symbol can draw at depth ≥ `max_depth`, and with non-empty production
lists, `K·(max_depth − depth) + μ(symbol)` bounds the recursion depth, so
the expansion returns a string. -/
theorem expandSymbol_isSome (g : Grammar) (maxDepth : Nat) (μ : String → Nat)
    (K : Nat)
    (hNE : ∀ sp ∈ g.rules, sp.2 ≠ ([] : List String))
    (hK : ∀ sp ∈ g.rules, ∀ p ∈ sp.2, ∀ t ∈ ntsIn p, μ t < K)
    (hSafe : ∀ sp ∈ g.rules,
      ∀ p ∈ atMaxChoices g.recursiveSymbols sp.1 sp.2, ∀ t ∈ ntsIn p, μ t < μ sp.1) :
    ∀ (fuel depth : Nat) (symbol : String) (rng : Rng),
      K * (maxDepth - depth) + μ symbol < fuel →
      (expandSymbol g maxDepth fuel depth symbol rng).isSome := by
  intro fuel
  induction fuel with
  | zero => intro depth symbol rng hM; omega
  | succ fuel ih =>
    intro depth symbol rng hM
    rcases hlook : g.rules.lookup symbol with _ | prods
    · simp [expandSymbol, hlook]
    have hmem : (symbol, prods) ∈ g.rules := lookup_mem hlook
    have hprods : prods ≠ [] := hNE _ hmem
    rcases hpick : pickProduction g.recursiveSymbols symbol prods depth maxDepth rng
        with _ | pr
    · have := pickProduction_isSome g.recursiveSymbols symbol depth maxDepth rng hprods
      rw [hpick] at this
      simp at this
    rcases pr with ⟨production, rng1⟩
    simp only [expandSymbol, hlook, hpick]
    apply expandToks_isSome
    intro t ht r
    apply ih
    have hts : t ∈ ntsIn production := ht
    by_cases hd : depth < maxDepth
    · have hμ : μ t < K := hK _ hmem _ (pickProduction_mem hpick).1 t hts
      have hx : maxDepth - depth = (maxDepth - (depth + 1)) + 1 := by omega
      rw [hx, Nat.mul_succ] at hM
      omega
    · have hchoice := (pickProduction_mem hpick).2 hd
      have hμ : μ t < μ symbol := hSafe _ hmem _ hchoice t hts
      have h0 : maxDepth - depth = 0 := by omega
      have h1 : maxDepth - (depth + 1) = 0 := by omega
      rw [h0] at hM
      rw [h1]
      simp only [Nat.mul_zero, Nat.zero_add] at hM ⊢
      omega

/-- The one-step unfolding of `expandSymbol` at positive fuel. -/
lemma expandSymbol_succ (g : Grammar) (maxDepth fuel depth : Nat) (symbol : String)
    (rng : Rng) :
    expandSymbol g maxDepth (Nat.succ fuel) depth symbol rng =
      match g.rules.lookup symbol with
      | Option.none => some (symbol, rng)
      | some prods =>
        match pickProduction g.recursiveSymbols symbol prods depth maxDepth rng with
        | Option.none => Option.none
        | some (production, rng1) =>
          expandToks (expandSymbol g maxDepth fuel) depth
            (tokenize production.toList) rng1 := rfl

lemma rngChoice_stream {α : Type} {rng : Rng} {l : List α} {xr : α × Rng}
    (h : rngChoice rng l = some xr) : xr.2.stream = rng.stream := by
  cases l with
  | nil => simp [rngChoice] at h
  | cons x xs =>
    simp only [rngChoice] at h
    have := (Option.some.injEq _ _).mp h
    rw [← this]
    rfl

lemma pickProduction_stream {recursiveSymbols : List String} {symbol : String}
    {prods : List String} {depth maxDepth : Nat} {rng : Rng} {pr : String × Rng}
    (h : pickProduction recursiveSymbols symbol prods depth maxDepth rng = some pr) :
    pr.2.stream = rng.stream := by
  unfold pickProduction at h
  split at h
  · exact rngChoice_stream h
  · exact rngChoice_stream h

lemma expandToks_stream (f : Nat → String → Rng → Option (String × Rng))
    (depth : Nat)
    (hf : ∀ (d : Nat) (t : String) (r : Rng) (s : String) (r' : Rng),
      f d t r = some (s, r') → r'.stream = r.stream) :
    ∀ (toks : List Tok) (rng : Rng) (s : String) (rng' : Rng),
      expandToks f depth toks rng = some (s, rng') → rng'.stream = rng.stream := by
  intro toks
  induction toks with
  | nil =>
    intro rng s rng' h
    simp only [expandToks] at h
    have h0 := (Option.some.injEq _ _).mp h
    have h2 : rng = rng' := congrArg Prod.snd h0
    rw [← h2]
  | cons hd rest ih =>
    intro rng s rng' h
    cases hd with
    | lit t =>
      simp only [expandToks] at h
      rcases hr : expandToks f depth rest rng with _ | tr
      · simp only [hr] at h; exact absurd h (by simp)
      · simp only [hr] at h
        rcases tr with ⟨s2, r2⟩
        have h0 := (Option.some.injEq _ _).mp h
        have h2 : r2 = rng' := congrArg Prod.snd h0
        rw [← h2]
        exact ih rng s2 r2 hr
    | nt t =>
      simp only [expandToks] at h
      rcases h1 : f (depth + 1) t rng with _ | sr
      · simp only [h1] at h; exact absurd h (by simp)
      · simp only [h1] at h
        rcases sr with ⟨s1, rng1⟩
        rcases hr : expandToks f depth rest rng1 with _ | tr
        · simp only [hr] at h; exact absurd h (by simp)
        · simp only [hr] at h
          rcases tr with ⟨s2, r2⟩
          have h0 := (Option.some.injEq _ _).mp h
          have h2 : r2 = rng' := congrArg Prod.snd h0
          rw [← h2, ih rng1 s2 r2 hr]
          exact hf (depth + 1) t rng s1 rng1 h1

/-- Expansion only advances the RNG cursor; the stream is unchanged. -/
lemma expandSymbol_stream (g : Grammar) (maxDepth : Nat) :
    ∀ (fuel depth : Nat) (symbol : String) (rng : Rng) (s : String) (rng' : Rng),
      expandSymbol g maxDepth fuel depth symbol rng = some (s, rng') →
      rng'.stream = rng.stream := by
  intro fuel
  induction fuel with
  | zero => intro depth symbol rng s rng' h; exact absurd h (by simp [expandSymbol])
  | succ fuel ih =>
    intro depth symbol rng s rng' h
    rw [expandSymbol_succ] at h
    rcases hlook : g.rules.lookup symbol with _ | prods
    · simp only [hlook] at h
      have h0 := (Option.some.injEq _ _).mp h
      have h2 : rng = rng' := congrArg Prod.snd h0
      rw [← h2]
    · simp only [hlook] at h
      rcases hpick : pickProduction g.recursiveSymbols symbol prods depth maxDepth rng
          with _ | pr
      · simp only [hpick] at h; exact absurd h (by simp)
      · simp only [hpick] at h
        rcases pr with ⟨production, rng1⟩
        have h1 := expandToks_stream (expandSymbol g maxDepth fuel) depth
          (fun d t r s r' hh => ih d t r s r' hh) (tokenize production.toList)
          rng1 s rng' h
        rw [h1]
        exact pickProduction_stream hpick

/-- At depth ≥ `max_depth`, `<elements>` has no safe production (both
options contain the recursive `<value>`), so the constant-1 stream keeps
selecting `"<value>,<elements>"` and the expansion exhausts any fuel. -/
lemma elements_diverge :
    ∀ (fuel depth c : Nat), 3 ≤ depth →
      expandSymbol JSON_GRAMMAR 3 fuel depth "<elements>"
        { stream := fun _ => 1, cursor := c } = Option.none := by
  intro fuel
  induction fuel with
  | zero => intro depth c _; rfl
  | succ fuel ih =>
    intro depth c hd
    have hd3 : ¬ depth < 3 := by omega
    have hlook : JSON_GRAMMAR.rules.lookup "<elements>"
        = some ["<value>", "<value>,<elements>"] := rfl
    have hpick : pickProduction JSON_GRAMMAR.recursiveSymbols "<elements>"
        ["<value>", "<value>,<elements>"] depth 3 { stream := fun _ => 1, cursor := c }
        = some ("<value>,<elements>", { stream := fun _ => 1, cursor := c + 1 }) := by
      unfold pickProduction
      rw [if_neg (by
        push_neg
        exact ⟨hd, by decide⟩)]
      rfl
    rw [expandSymbol_succ]
    simp only [hlook, hpick]
    have htok : tokenize "<value>,<elements>".toList
        = [Tok.nt "<value>", Tok.lit ",", Tok.nt "<elements>"] := rfl
    rw [htok]
    simp only [expandToks]
    rcases hv : expandSymbol JSON_GRAMMAR 3 fuel (depth + 1) "<value>"
        { stream := fun _ => 1, cursor := c + 1 } with _ | sr
    · simp [hv]
    · rcases sr with ⟨s1, rng1⟩
      have hstream : rng1.stream = fun _ => 1 :=
        expandSymbol_stream JSON_GRAMMAR 3 fuel (depth + 1) "<value>" _ s1 rng1 hv
      have helem : expandSymbol JSON_GRAMMAR 3 fuel (depth + 1) "<elements>" rng1
          = Option.none := by
        rcases rng1 with ⟨st1, c1⟩
        have hst : st1 = fun _ => 1 := hstream
        subst hst
        exact ih (depth + 1) c1 (by omega)
      simp [hv, helem]

/-- The constant-1 stream drives the whole generator into the
`<elements>` loop: `<json>` → `<value>` → `<array>` → `[<elements>]`,
with `<elements>` first reached exactly at depth 3 = `max_depth`. -/
lemma json_diverges :
    ∀ fuel : Nat,
      generateFromGrammar JSON_GRAMMAR 3 { stream := fun _ => 1, cursor := 0 } fuel
        = Option.none := by
  intro fuel
  unfold generateFromGrammar
  rw [if_neg (by omega : ¬ (3 : Nat) < 1)]
  match fuel with
  | 0 => rfl
  | 1 => rfl
  | 2 => rfl
  | (Nat.succ (Nat.succ (Nat.succ f))) =>
    rw [show JSON_GRAMMAR.start = "<json>" from rfl]
    rw [expandSymbol_succ]
    have hlook1 : JSON_GRAMMAR.rules.lookup "<json>" = some ["<value>"] := rfl
    have hpick1 : pickProduction JSON_GRAMMAR.recursiveSymbols "<json>" ["<value>"]
        0 3 { stream := fun _ => 1, cursor := 0 }
        = some ("<value>", { stream := fun _ => 1, cursor := 1 }) := rfl
    simp only [hlook1, hpick1]
    have htok1 : tokenize "<value>".toList = [Tok.nt "<value>"] := rfl
    rw [htok1]
    simp only [expandToks]
    have hval : expandSymbol JSON_GRAMMAR 3 (Nat.succ (Nat.succ f)) 1 "<value>"
        { stream := fun _ => 1, cursor := 1 }
        = expandToks (expandSymbol JSON_GRAMMAR 3 (Nat.succ f)) 1
            (tokenize "<array>".toList) { stream := fun _ => 1, cursor := 2 } := by
      rw [expandSymbol_succ]
      have hlook2 : JSON_GRAMMAR.rules.lookup "<value>"
          = some ["<object>", "<array>", "<string>", "<number>", "true", "false",
            "null"] := rfl
      have hpick2 : pickProduction JSON_GRAMMAR.recursiveSymbols "<value>"
          ["<object>", "<array>", "<string>", "<number>", "true", "false", "null"]
          1 3 { stream := fun _ => 1, cursor := 1 }
          = some ("<array>", { stream := fun _ => 1, cursor := 2 }) := rfl
      simp only [hlook2, hpick2]
    rw [hval]
    have htok2 : tokenize "<array>".toList = [Tok.nt "<array>"] := rfl
    rw [htok2]
    simp only [expandToks]
    have harr : expandSymbol JSON_GRAMMAR 3 (Nat.succ f) 2 "<array>"
        { stream := fun _ => 1, cursor := 2 }
        = expandToks (expandSymbol JSON_GRAMMAR 3 f) 2
            (tokenize "[<elements>]".toList) { stream := fun _ => 1, cursor := 3 } := by
      rw [expandSymbol_succ]
      have hlook3 : JSON_GRAMMAR.rules.lookup "<array>"
          = some ["[]", "[<elements>]"] := rfl
      have hpick3 : pickProduction JSON_GRAMMAR.recursiveSymbols "<array>"
          ["[]", "[<elements>]"] 2 3 { stream := fun _ => 1, cursor := 2 }
          = some ("[<elements>]", { stream := fun _ => 1, cursor := 3 }) := rfl
      simp only [hlook3, hpick3]
    rw [harr]
    have htok3 : tokenize "[<elements>]".toList
        = [Tok.lit "[", Tok.nt "<elements>", Tok.lit "]"] := rfl
    rw [htok3]
    simp only [expandToks]
    have helem := elements_diverge f 3 3 (le_refl 3)
    simp [helem]

/-- Ranking for the IPv4/IPv6/composite grammars (no recursive symbols;
every production chain strictly descends). -/
def ipMeasure (s : String) : Nat :=
  if s = "<ip>" then 4
  else if s = "<ipv4_input>" ∨ s = "<ipv6_input>" then 3
  else if s = "<ipv4>" ∨ s = "<ipv6>" then 2
  else 1

set_option maxRecDepth 40000 in
/-- C10: the claim's justification fails concretely: `<elements>` is
recursive but both of its productions contain the recursive `<value>`, so
the "safe" restriction at depth ≥ `max_depth` falls back to the full
production list, and the constant-1 RNG stream never terminates — fuel 50
(well above the bound that suffices for the IP grammars at
`max_depth = 3`) is exhausted with no string produced. -/
theorem claim_C10_counterexample :
    (generateFromGrammar JSON_GRAMMAR 3 { stream := fun _ => 1 } 50).isSome = false ∧
    safeOr JSON_GRAMMAR.recursiveSymbols ["<value>", "<value>,<elements>"]
      = ["<value>", "<value>,<elements>"] ∧
    JSON_GRAMMAR.rules.lookup "<elements>" = some ["<value>", "<value>,<elements>"] ∧
    5 * 3 + 5 ≤ 50 :=
  ⟨rfl, rfl, rfl, by decide⟩

/-- C10 (amended): for every RNG and every `max_depth ≥ 1` the IPv4, IPv6
and composite IP grammars terminate and return a string (uniform fuel
`5·max_depth + 5` suffices); the JSON grammar does not terminate for
every RNG: `<elements>` reached at depth ≥ `max_depth` has no production
free of recursive non-terminals, and under the constant-1 stream at
`max_depth = 3` no fuel ever suffices. -/
theorem claim_C10_theorem :
    (∀ (rng : Rng) (maxDepth fuel : Nat), 1 ≤ maxDepth → 5 * maxDepth + 5 ≤ fuel →
      (generateFromGrammar IPV4_GRAMMAR maxDepth rng fuel).isSome = true ∧
      (generateFromGrammar IPV6_GRAMMAR maxDepth rng fuel).isSome = true ∧
      (generateFromGrammar IP_GRAMMAR maxDepth rng fuel).isSome = true) ∧
    (∀ fuel : Nat,
      generateFromGrammar JSON_GRAMMAR 3 { stream := fun _ => 1, cursor := 0 } fuel
        = Option.none) := by
  constructor
  · intro rng maxDepth fuel h1 h2
    have hlt : ¬ maxDepth < 1 := by omega
    refine ⟨?_, ?_, ?_⟩
    · unfold generateFromGrammar
      rw [if_neg hlt]
      refine expandSymbol_isSome IPV4_GRAMMAR maxDepth ipMeasure 5
        (by decide) (by decide) (by decide) fuel 0 _ rng ?_
      have hμ : ipMeasure IPV4_GRAMMAR.start = 3 := by decide
      rw [hμ]
      omega
    · unfold generateFromGrammar
      rw [if_neg hlt]
      refine expandSymbol_isSome IPV6_GRAMMAR maxDepth ipMeasure 5
        (by decide) (by decide) (by decide) fuel 0 _ rng ?_
      have hμ : ipMeasure IPV6_GRAMMAR.start = 3 := by decide
      rw [hμ]
      omega
    · unfold generateFromGrammar
      rw [if_neg hlt]
      refine expandSymbol_isSome IP_GRAMMAR maxDepth ipMeasure 5
        (by decide) (by decide) (by decide) fuel 0 _ rng ?_
      have hμ : ipMeasure IP_GRAMMAR.start = 4 := by decide
      rw [hμ]
      omega
  · exact json_diverges

/-- Witness for C10: the positive part at `max_depth = 1`, fuel 10. -/
theorem claim_C10_witness :
    (generateFromGrammar IPV4_GRAMMAR 1 { stream := fun _ => 0 } 10).isSome = true ∧
    (generateFromGrammar IPV6_GRAMMAR 1 { stream := fun _ => 0 } 10).isSome = true ∧
    (generateFromGrammar IP_GRAMMAR 1 { stream := fun _ => 0 } 10).isSome = true :=
  claim_C10_theorem.1 { stream := fun _ => 0 } 1 10 (by decide) (by decide)

end Gram

/-! ## `seed_scheduler/`: queue, heap and UCB-tree schedulers -/

namespace Sched

open Score (PyVal dictGet dictGetD pyFalsy pyLower)

/-- `f"{n:06d}"`. -/
def fmt6 (n : Nat) : String :=
  let s := toString n
  String.mk (List.replicate (6 - s.length) '0') ++ s

/-- Python dict read (insertion-ordered association list, distinct keys). -/
def lookA {β : Type} : List (String × β) → String → Option β
  | [], _ => Option.none
  | (k, v) :: rest, key => if k = key then some v else lookA rest key

/-- Python `d[key] = v`: overwrite in place, else append. -/
def setA {β : Type} : List (String × β) → String → β → List (String × β)
  | [], key, v => [(key, v)]
  | (k, w) :: rest, key, v =>
    if k = key then (k, v) :: rest else (k, w) :: setA rest key v

/-- Python `d.pop(key, None)`. -/
def remA {β : Type} : List (String × β) → String → List (String × β)
  | [], _ => []
  | (k, w) :: rest, key => if k = key then rest else (k, w) :: remA rest key

/-- Mutate the entry at `key` in place (no-op when absent). -/
def mapA {β : Type} (f : β → β) : List (String × β) → String → List (String × β)
  | [], _ => []
  | (k, w) :: rest, key =>
    if k = key then (k, f w) :: rest else (k, w) :: mapA f rest key

/-- Python `key in d`. -/
def dictMem : List (String × PyVal) → String → Bool
  | [], _ => false
  | (k, _) :: rest, key => k = key || dictMem rest key

/-- Truthiness of an optional dynamic value (`if signals:`). -/
def sigTruthy : Option PyVal → Bool
  | Option.none => false
  | some v => !(pyFalsy v)

/-- Python `a or b` on dynamic values. -/
def pyOr (a b : PyVal) : PyVal := if pyFalsy a then b else a

/-- Read a wrapped result as a mapping: `x or \x7b\x7d` followed by
`.get` accesses; falsy values give the empty dict.  (A truthy non-mapping
would raise `AttributeError` in the source and is not modelled.) -/
def asDictD : PyVal → List (String × PyVal)
  | .dict l => l
  | _ => []

/-- Python `repr` of the dynamic values (`str(x)` for non-strings). -/
def pyRepr : PyVal → String
  | .none => "None"
  | .bool true => "True"
  | .bool false => "False"
  | .int n => toString n
  | .str s => "\x27" ++ s ++ "\x27"
  | .list l => "[" ++ pyReprList l ++ "]"
  | .dict l => "\x7b" ++ pyReprDict l ++ "\x7d"
where
  pyReprList : List PyVal → String
    | [] => ""
    | [v] => pyRepr v
    | v :: rest => pyRepr v ++ ", " ++ pyReprList rest
  pyReprDict : List (String × PyVal) → String
    | [] => ""
    | [(k, v)] => "\x27" ++ k ++ "\x27: " ++ pyRepr v
    | (k, v) :: rest => "\x27" ++ k ++ "\x27: " ++ pyRepr v ++ ", " ++ pyReprDict rest

/-- Python `str(x)`. -/
def strOf : PyVal → String
  | .str s => s
  | v => pyRepr v

/-! ### QueueScheduler (`queue_scheduler.py`) -/

/-- The mutable fields of a `ScheduledSeed` the queue scheduler touches. -/
structure QItem where
  itemId : String
  timesSelected : Nat := 0
  updates : Nat := 0
  lastScore : Option ℚ := Option.none
  totalScore : ℚ := 0
  lastSignals : Option PyVal := Option.none

/-- `QueueScheduler` state: FIFO deque of item ids plus the registry. -/
structure QueueState where
  queue : List String
  items : List (String × QItem)
  seq : Nat

def qInit : QueueState := ⟨[], [], 0⟩

/-- `QueueScheduler.add`. -/
def qAdd (st : QueueState) : QueueState × QItem :=
  let seq := st.seq + 1
  let id := "q" ++ fmt6 seq
  let item : QItem := { itemId := id }
  ({ queue := st.queue ++ [id], items := setA st.items id item, seq := seq }, item)

/-- `QueueScheduler.next`: `none` renders the `IndexError` (empty) and
the impossible registry miss (`KeyError`). -/
def qNext (st : QueueState) : Option (QueueState × QItem) :=
  match st.queue with
  | [] => Option.none
  | id :: rest =>
    match lookA st.items id with
    | Option.none => Option.none
    | some it =>
      let it2 := { it with timesSelected := it.timesSelected + 1 }
      some ({ st with queue := rest, items := setA st.items id it2 }, it2)

/-- `QueueScheduler.update`: `none` renders the `KeyError` on an unknown
item id. -/
def qUpdate (st : QueueState) (id : String) (score : ℚ) (signals : Option PyVal) :
    Option QueueState :=
  match lookA st.items id with
  | Option.none => Option.none
  | some it =>
    let it2 := { it with
      lastScore := some score,
      totalScore := it.totalScore + score,
      updates := it.updates + 1,
      lastSignals := if sigTruthy signals then signals else it.lastSignals }
    some { st with items := setA st.items id it2, queue := st.queue ++ [id] }

/-- `QueueScheduler.empty`. -/
def qEmpty (st : QueueState) : Bool := st.queue.length == 0

inductive QOp
  | add
  | next
  | update (id : String) (score : ℚ) (signals : Option PyVal)

/-- One trace step; a raising call leaves the state unchanged (both
failing calls raise before any mutation). -/
def qStep (st : QueueState) : QOp → QueueState
  | .add => (qAdd st).1
  | .next =>
    match qNext st with
    | some (st2, _) => st2
    | Option.none => st
  | .update id score sig => (qUpdate st id score sig).getD st

def runQ (ops : List QOp) : QueueState := ops.foldl qStep qInit

/-! ### HeapScheduler (`heap_scheduler.py`) -/

/-- The mutable fields of a `ScheduledSeed` the heap scheduler touches. -/
structure HItem where
  itemId : String
  bucket : String
  priority : ℚ
  timesSelected : Nat := 0
  updates : Nat := 0
  lastScore : Option ℚ := Option.none
  totalScore : ℚ := 0
  lastSignals : Option PyVal := Option.none

/-- A heap entry `(-priority, counter, item_id)`. -/
abbrev HEntry := ℚ × Nat × String

/-- `HeapScheduler` state (`mode = true` is `priority_mode="last_score"`).
The heap is kept as the multiset of pushed entries; `heappop` removes
the tuple-minimum, which is all the claims observe. -/
structure HeapState where
  mode : Bool
  prior : List (String × ℚ)
  heap : List HEntry
  items : List (String × HItem)
  seq : Nat
  counter : Nat

def hInit (mode : Bool) (prior : List (String × ℚ)) : HeapState :=
  ⟨mode, prior, [], [], 0, 0⟩

/-- `self._bucket_prior.get(bucket, 0.0)`. -/
def priorGet (prior : List (String × ℚ)) (bucket : String) : ℚ :=
  (lookA prior bucket).getD 0

/-- `HeapScheduler._compute_priority` (`avg` is 0 when `updates = 0`,
and `last_isinteresting_score or 0.0` collapses `None` and `0.0`). -/
def computePriority (st : HeapState) (it : HItem) : ℚ :=
  let base := priorGet st.prior it.bucket
  if st.mode then base + it.lastScore.getD 0
  else base + (if it.updates = 0 then 0 else it.totalScore / (it.updates : ℚ))

/-- `HeapScheduler._push_heap`. -/
def pushHeap (st : HeapState) (it : HItem) : HeapState :=
  let counter := st.counter + 1
  { st with
    counter := counter,
    heap := st.heap ++ [(-it.priority, counter, it.itemId)] }

/-- Tuple `≤` on heap entries (counters are distinct, so this is total). -/
def entryLE (a b : HEntry) : Bool :=
  if a.1 ≠ b.1 then decide (a.1 < b.1)
  else if a.2.1 ≠ b.2.1 then decide (a.2.1 < b.2.1)
  else !(strLt b.2.2 a.2.2)

/-- `heapq.heappop`: the tuple-minimum entry and the remaining multiset. -/
def popMin : List HEntry → Option (HEntry × List HEntry)
  | [] => Option.none
  | e :: es =>
    match popMin es with
    | Option.none => some (e, [])
    | some (m, rest) => if entryLE e m then some (e, es) else some (m, e :: rest)

/-- `HeapScheduler.add`. -/
def hAdd (st : HeapState) (seedBucket : String) : HeapState × HItem :=
  let seq := st.seq + 1
  let id := "h" ++ fmt6 seq
  let item : HItem := { itemId := id, bucket := seedBucket, priority := priorGet st.prior seedBucket }
  let st1 := { st with seq := seq, items := setA st.items id item }
  (pushHeap st1 item, item)

/-- The stale-entry skip loop of `HeapScheduler.next` (entries whose id
left the registry are dropped); fuel is the heap size. -/
def hNextGo (items : List (String × HItem)) : Nat → List HEntry →
    Option (HItem × List HEntry)
  | 0, _ => Option.none
  | fuel + 1, heap =>
    match popMin heap with
    | Option.none => Option.none
    | some (e, rest) =>
      match lookA items e.2.2 with
      | some it => some (it, rest)
      | Option.none => hNextGo items fuel rest

/-- `HeapScheduler.next`: `none` renders the `IndexError`. -/
def hNext (st : HeapState) : Option (HeapState × HItem) :=
  match hNextGo st.items st.heap.length st.heap with
  | Option.none => Option.none
  | some (it, rest) =>
    let it2 := { it with timesSelected := it.timesSelected + 1 }
    some ({ st with heap := rest, items := setA st.items it.itemId it2 }, it2)

/-- `HeapScheduler.update`: `none` renders the `KeyError`. -/
def hUpdate (st : HeapState) (id : String) (score : ℚ) (signals : Option PyVal) :
    Option HeapState :=
  match lookA st.items id with
  | Option.none => Option.none
  | some it =>
    let it1 := { it with
      lastScore := some score,
      totalScore := it.totalScore + score,
      updates := it.updates + 1,
      lastSignals := if sigTruthy signals then signals else it.lastSignals }
    let it2 := { it1 with priority := computePriority st it1 }
    let st1 := { st with items := setA st.items id it2 }
    some (pushHeap st1 it2)

/-- `HeapScheduler.empty` (`len(self._heap) <= 0`). -/
def hEmpty (st : HeapState) : Bool := decide (st.heap.length ≤ 0)

inductive HOp
  | add (bucket : String)
  | next
  | update (id : String) (score : ℚ) (signals : Option PyVal)

/-- One trace step; raising calls leave the state unchanged. -/
def hStep (st : HeapState) : HOp → HeapState
  | .add b => (hAdd st b).1
  | .next =>
    match hNext st with
    | some (st2, _) => st2
    | Option.none => st
  | .update id score sig => (hUpdate st id score sig).getD st

def runH (mode : Bool) (prior : List (String × ℚ)) (ops : List HOp) : HeapState :=
  ops.foldl hStep (hInit mode prior)

/-! ### UCBTreeScheduler (`ucb_tree_scheduler.py`) -/

/-- `_TreeNode` statistics.  `rewards` is a ghost audit trail: one entry
per `update_stats` call, recording the reward it received. -/
structure UNode where
  nSelected : Nat := 0
  qAvg : ℚ := 0
  rewards : List ℚ := []

/-- `_TreeNode.update_stats` (incremental mean). -/
def updateStats (n : UNode) (r : ℚ) : UNode :=
  let nSel := n.nSelected + 1
  { nSelected := nSel, qAvg := n.qAvg + (r - n.qAvg) / (nSel : ℚ),
    rewards := n.rewards ++ [r] }

/-- The mutable fields of a `ScheduledSeed` the UCB scheduler touches;
`home` models `metadata["_ucb_home"]` (always written by `add`) and
`lastPath` both `"_ucb_last_path"`/`"_ucb_last_leaf"` (written together
by `next`; the path references resolve to the tree nodes at those keys,
which are never removed or replaced). -/
structure UItem where
  itemId : String
  seedText : String
  timesSelected : Nat := 0
  updates : Nat := 0
  lastScore : Option ℚ := Option.none
  totalScore : ℚ := 0
  home : String × String
  lastPath : Option (String × String) := Option.none
  lastSignals : Option PyVal := Option.none

/-- A bug-bucket leaf. -/
structure ULeaf where
  stats : UNode := {}
  seeds : List UItem := []

/-- A coverage-bucket node with its bug-bucket children. -/
structure CovNode where
  stats : UNode := {}
  leaves : List (String × ULeaf) := []

/-- `UCBTreeScheduler` state. -/
structure UCBState where
  ucbC : ℚ
  maxSeedsPerLeaf : Nat
  rootStats : UNode
  tree : List (String × CovNode)
  items : List (String × UItem)
  seq : Nat

def uInit (c : ℚ) (m : Nat) : UCBState := ⟨c, m, {}, [], [], 0⟩

/-- `UCBTreeScheduler._normalize_signals` over the dynamic values. -/
def normalizeSignals (signals : Option PyVal) : Option PyVal :=
  match signals with
  | Option.none => Option.none
  | some v =>
    if pyFalsy v then some v
    else
      match v with
      | .dict d =>
        if !(dictMem d "closed_result") && !(dictMem d "open_result") then some v
        else
          let closed := asDictD (dictGet d "closed_result")
          let open_ := asDictD (dictGet d "open_result")
          let status := pyLower (strOf
            (pyOr (dictGet closed "status") (pyOr (dictGet open_ "status") (.str "ok"))))
          let bugSig := pyOr (dictGet closed "bug_signature") (dictGet open_ "bug_signature")
          let out0 : List (String × PyVal) :=
            [("status", .str status), ("bug_signature", bugSig)]
          let out1 := ["new_coverage", "new_bug", "crash", "timeout"].foldl
            (fun acc key =>
              if dictMem d key then acc ++ [(key, dictGet d key)]
              else if dictMem closed key then acc ++ [(key, dictGet closed key)]
              else if dictMem open_ key then acc ++ [(key, dictGet open_ key)]
              else acc) out0
          let out2 :=
            if !(pyFalsy (dictGet d "coverage_key")) then
              out1 ++ [("coverage_key", dictGet d "coverage_key")]
            else if !(pyFalsy (dictGet closed "coverage_key")) then
              out1 ++ [("coverage_key", dictGet closed "coverage_key")]
            else if !(pyFalsy (dictGet closed "coverage_signature")) then
              out1 ++ [("coverage_signature", dictGet closed "coverage_signature")]
            else if !((dictGet closed "branch_details_by_file").isNone) then
              out1 ++ [("coverage_key",
                .dict [("branch_details_by_file", dictGet closed "branch_details_by_file")])]
            else if dictMem closed "covered_branches" || dictMem closed "missing_branches"
                || dictMem open_ "covered_branches" || dictMem open_ "missing_branches" then
              out1 ++ [("coverage_key", .dict [
                ("covered_branches",
                  dictGetD closed "covered_branches" (dictGet open_ "covered_branches")),
                ("missing_branches",
                  dictGetD closed "missing_branches" (dictGet open_ "missing_branches"))])]
            else out1
          let out3 := ["stdout_signature", "stderr_signature", "semantic_output_signature"].foldl
            (fun acc key =>
              if dictMem closed key then acc ++ [(key, dictGet closed key)]
              else if dictMem open_ key then acc ++ [(key, dictGet open_ key)]
              else acc) out2
          some (.dict out3)
      | _ => some (.dict [("raw_signals", v)])

/-- `UCBTreeScheduler._coverage_bucket_key`; `sh` is the
`_short_hash` digest oracle (SHA-256 is external to this development). -/
def coverageBucketKey (sh : PyVal → String) (signals : Option PyVal) : String :=
  match signals with
  | Option.none => "NO_COVERAGE"
  | some v =>
    if pyFalsy v then "NO_COVERAGE"
    else
      let d := asDictD v
      if !(pyFalsy (dictGet d "coverage_key")) then strOf (dictGet d "coverage_key")
      else if !(pyFalsy (dictGet d "coverage_signature")) then
        strOf (dictGet d "coverage_signature")
      else if dictMem d "coverage_bitmap" && !((dictGet d "coverage_bitmap").isNone) then
        "COV:" ++ sh (dictGet d "coverage_bitmap")
      else "NO_COVERAGE"

/-- Python `v in (None, "", [], \x7b\x7d)` for the meaningful-signature
filter. -/
def isEmptyish (v : PyVal) : Bool :=
  PyVal.beq v .none || PyVal.beq v (.str "") || PyVal.beq v (.list []) ||
    PyVal.beq v (.dict [])

/-- The crash/output fallback chain of `_bug_bucket_key`. -/
def bugFallback (sh : PyVal → String) (d : List (String × PyVal)) : String :=
  let status := pyLower (strOf (dictGetD d "status" (.str "")))
  if !(pyFalsy (dictGet d "crash")) || !(pyFalsy (dictGet d "timeout")) ||
      status = "crash" || status = "timeout" then "BUG:CRASH_OR_TIMEOUT"
  else if !(pyFalsy (dictGet d "stdout_signature")) ||
      !(pyFalsy (dictGet d "stderr_signature")) then
    "OUT:" ++ sh (.dict [("stdout_signature", dictGet d "stdout_signature"),
      ("stderr_signature", dictGet d "stderr_signature")])
  else "NO_BUG"

/-- `UCBTreeScheduler._bug_bucket_key`. -/
def bugBucketKey (sh : PyVal → String) (signals : Option PyVal) : String :=
  match signals with
  | Option.none => "NO_BUG"
  | some v =>
    if pyFalsy v then "NO_BUG"
    else
      let d := asDictD v
      if !(pyFalsy (dictGet d "bug_key")) then strOf (dictGet d "bug_key")
      else
        match dictGet d "bug_signature" with
        | .dict m =>
          let meaningful := m.filter (fun kv => !(isEmptyish kv.2))
          if meaningful.isEmpty then bugFallback sh d
          else "BUG:" ++ sh (.dict meaningful)
        | _ => bugFallback sh d

/-- `UCBTreeScheduler._reward_from_signals`. -/
def rewardFromSignals (signals : Option PyVal) : ℚ :=
  match signals with
  | Option.none => 0
  | some v =>
    if pyFalsy v then 0
    else
      let d := asDictD v
      (if !(pyFalsy (dictGet d "new_coverage")) then 1 else 0) +
      (if !(pyFalsy (dictGet d "new_bug")) then 2 else 0) +
      (if !(pyFalsy (dictGet d "crash")) || !(pyFalsy (dictGet d "timeout")) ||
          pyLower (strOf (dictGetD d "status" (.str ""))) = "crash" ||
          pyLower (strOf (dictGetD d "status" (.str ""))) = "timeout" then 3 else 0)

/-- `UCBTreeScheduler._ensure_leaf` on the key-indexed tree. -/
def ensureTree (tree : List (String × CovNode)) (covKey bugKey : String) :
    List (String × CovNode) :=
  match lookA tree covKey with
  | Option.none => tree ++ [(covKey, { leaves := [(bugKey, {})] })]
  | some cov =>
    match lookA cov.leaves bugKey with
    | Option.none =>
      mapA (fun c => { c with leaves := c.leaves ++ [(bugKey, {})] }) tree covKey
    | some _ => tree

/-- The leaf sort key `(len(it.seed.text), it.item_id)` as a strict order
(keys are distinct in every reachable leaf). -/
def leafLt (a b : UItem) : Bool :=
  a.seedText.length < b.seedText.length ||
    (a.seedText.length == b.seedText.length && strLt a.itemId b.itemId)

/-- `leaf.seeds.sort(key=...)`. -/
def sortSeeds (l : List UItem) : List UItem := Corpus.sortBy leafLt l

/-- The seeds of the leaf at `(covKey, bugKey)` (empty when absent). -/
def leafSeedsAt (tree : List (String × CovNode)) (covKey bugKey : String) :
    List UItem :=
  match lookA tree covKey with
  | Option.none => []
  | some cov =>
    match lookA cov.leaves bugKey with
    | Option.none => []
    | some l => l.seeds

/-- Overwrite the seeds of the leaf at `(covKey, bugKey)`. -/
def setLeaf (tree : List (String × CovNode)) (covKey bugKey : String)
    (seeds : List UItem) : List (String × CovNode) :=
  mapA (fun c => { c with
    leaves := mapA (fun l => { l with seeds := seeds }) c.leaves bugKey }) tree covKey

/-- `UCBTreeScheduler._insert_into_leaf`: sorted insert plus eviction of
the tail beyond `max_seeds_per_leaf` (evicted ids leave the registry). -/
def insertIntoLeaf (maxSeeds : Nat) (items : List (String × UItem))
    (seeds : List UItem) (it : UItem) : List UItem × List (String × UItem) :=
  let seeds1 := sortSeeds (seeds ++ [it])
  if maxSeeds < seeds1.length then
    (seeds1.take maxSeeds,
      (seeds1.drop maxSeeds).foldl (fun acc old => remA acc old.itemId) items)
  else (seeds1, items)

/-- Ensure the leaf exists, then insert with eviction. -/
def uDoInsert (st : UCBState) (covKey bugKey : String) (it : UItem) : UCBState :=
  let tree1 := ensureTree st.tree covKey bugKey
  let pair := insertIntoLeaf st.maxSeedsPerLeaf st.items
    (leafSeedsAt tree1 covKey bugKey) it
  { st with tree := setLeaf tree1 covKey bugKey pair.1, items := pair.2 }

/-- `UCBTreeScheduler.add` (metadata is `\x7b"signals": ...\x7d` as the
fuzzing loop passes it). -/
def uAdd (sh : PyVal → String) (st : UCBState) (seedText : String)
    (signals : Option PyVal) : UCBState × UItem :=
  let normalized := normalizeSignals signals
  let covKey := coverageBucketKey sh normalized
  let bugKey := bugBucketKey sh normalized
  let seq := st.seq + 1
  let id := "u" ++ fmt6 seq
  let item : UItem := { itemId := id, seedText := seedText, home := (covKey, bugKey) }
  let st1 := { st with seq := seq, items := setA st.items id item }
  (uDoInsert st1 covKey bugKey item, item)

/-- `_ucb_score`: `none` is `+∞` (unvisited child); `sq` is the
`sqrt(log(max(parent_n,1))/child_n)` oracle (transcendental, external to
this development, and nonnegative — no value of it is ever compared). -/
def scoreOf (sq : Nat → Nat → ℚ) (c : ℚ) (parentN : Nat) (n : UNode) : Option ℚ :=
  if n.nSelected = 0 then Option.none
  else some (n.qAvg + c * sq (max parentN 1) n.nSelected)

/-- `score > best_score` with `none` on the right the initial `-∞`. -/
def scoreGT : Option ℚ → Option (Option ℚ) → Bool
  | _, Option.none => true
  | Option.none, some Option.none => false
  | Option.none, some (some _) => true
  | some _, some Option.none => false
  | some a, some (some b) => decide (b < a)

/-- The argmax loop of `_select_ucb_child`. -/
def selectGo {α : Type} (score : α → Option ℚ) :
    List (String × α) → Option (String × α) → Option (Option ℚ) →
    Option (String × α)
  | [], best, _ => best
  | c :: cs, best, bestScore =>
    if scoreGT (score c.2) bestScore then selectGo score cs (some c) (some (score c.2))
    else selectGo score cs best bestScore

/-- `_select_ucb_child`. -/
def selectChild {α : Type} (score : α → Option ℚ) (avail : α → Nat)
    (children : List (String × α)) : Option (String × α) :=
  if (children.filter (fun c => decide (0 < avail c.2))).isEmpty then Option.none
  else selectGo score (children.filter (fun c => decide (0 < avail c.2)))
    Option.none Option.none

/-- `_available_count` on a bug leaf / coverage node / the root. -/
def availLeaf (l : ULeaf) : Nat := l.seeds.length

def availCov (c : CovNode) : Nat := (c.leaves.map (fun p => availLeaf p.2)).sum

def availRoot (st : UCBState) : Nat := (st.tree.map (fun p => availCov p.2)).sum

/-- `UCBTreeScheduler.empty`. -/
def uEmpty (st : UCBState) : Bool := availRoot st == 0

/-- `UCBTreeScheduler.next`: walk root → coverage → bug by UCB, sort the
leaf, pop its head; `none` renders every raise. -/
def uNext (sq : Nat → Nat → ℚ) (st : UCBState) : Option (UCBState × UItem) :=
  if uEmpty st then Option.none
  else
    match selectChild (fun c => scoreOf sq st.ucbC st.rootStats.nSelected c.stats)
        availCov st.tree with
    | Option.none => Option.none
    | some (covKey, cov) =>
      match selectChild (fun l => scoreOf sq st.ucbC cov.stats.nSelected l.stats)
          availLeaf cov.leaves with
      | Option.none => Option.none
      | some (bugKey, leaf) =>
        match sortSeeds leaf.seeds with
        | [] => Option.none
        | item :: rest =>
          let item2 := { item with
            timesSelected := item.timesSelected + 1,
            lastPath := some (covKey, bugKey) }
          some ({ st with
            tree := setLeaf st.tree covKey bugKey rest,
            items := setA st.items item.itemId item2 }, item2)

/-- The re-insertion destination of `update`:
`metadata.get("_ucb_last_leaf") or metadata.get("_ucb_home", ...)`
(`_ucb_home` is always present, and a 2-tuple is always truthy). -/
def reinsertionKeys (it : UItem) : String × String := it.lastPath.getD it.home

/-- Back-propagation along the stored path `[root, cov, bug]`: bump the
coverage node at `covKey` and its bug child at `bugKey`. -/
def bumpStatsTree (tree : List (String × CovNode)) (covKey bugKey : String)
    (r : ℚ) : List (String × CovNode) :=
  mapA (fun c => { c with
    stats := updateStats c.stats r,
    leaves := mapA (fun l => { l with stats := updateStats l.stats r })
      c.leaves bugKey }) tree covKey

/-- `UCBTreeScheduler.update`.  The Bool is `false` on a raise: the
`KeyError` (unknown id, nothing mutated) or the `ValueError` (no stored
path — the score fields were already mutated, as in the source). -/
def uUpdate (sh : PyVal → String) (st : UCBState) (id : String) (score : ℚ)
    (signals : Option PyVal) : UCBState × Bool :=
  match lookA st.items id with
  | Option.none => (st, false)
  | some stored =>
    let normalized := normalizeSignals signals
    let stored1 := { stored with
      lastScore := some score,
      totalScore := stored.totalScore + score,
      updates := stored.updates + 1,
      lastSignals := if sigTruthy normalized then normalized else stored.lastSignals }
    let st1 := { st with items := setA st.items id stored1 }
    match stored1.lastPath with
    | Option.none => (st1, false)
    | some pathKeys =>
      let reward := rewardFromSignals normalized
      let st2 := { st1 with
        rootStats := updateStats st1.rootStats reward,
        tree := bumpStatsTree st1.tree pathKeys.1 pathKeys.2 reward }
      let keys := reinsertionKeys stored1
      (uDoInsert st2 keys.1 keys.2 stored1, true)

inductive UOp
  | add (seedText : String) (signals : Option PyVal)
  | next
  | update (id : String) (score : ℚ) (signals : Option PyVal)

/-- One trace step (`update` keeps its partial mutations on a raise). -/
def uStep (sh : PyVal → String) (sq : Nat → Nat → ℚ) (st : UCBState) :
    UOp → UCBState
  | .add t s => (uAdd sh st t s).1
  | .next =>
    match uNext sq st with
    | some (st2, _) => st2
    | Option.none => st
  | .update id score sig => (uUpdate sh st id score sig).1

def runU (sh : PyVal → String) (sq : Nat → Nat → ℚ) (c : ℚ) (m : Nat)
    (ops : List UOp) : UCBState :=
  ops.foldl (uStep sh sq) (uInit c m)

/-- The item ids of the leaf at `(covKey, bugKey)`. -/
def leafIds (st : UCBState) (covKey bugKey : String) : List String :=
  (leafSeedsAt st.tree covKey bugKey).map (fun it => it.itemId)

/-! ### Association-list lemmas -/

lemma lookA_setA {β : Type} (l : List (String × β)) (key k : String) (v : β) :
    lookA (setA l k v) key = if k = key then some v else lookA l key := by
  induction l with
  | nil => simp [setA, lookA]
  | cons p rest ih =>
    rcases p with ⟨a, b⟩
    by_cases hak : a = k
    · subst hak
      by_cases hk : a = key <;> simp [setA, lookA, hk]
    · by_cases hk : a = key
      · subst hk
        simp [setA, lookA, hak, Ne.symm hak]
      · simp [setA, lookA, hak, hk, ih]

lemma lookA_mapA {β : Type} (f : β → β) (l : List (String × β)) (k key : String) :
    lookA (mapA f l k) key =
      if k = key then (lookA l key).map f else lookA l key := by
  induction l with
  | nil => simp [mapA, lookA]
  | cons p rest ih =>
    rcases p with ⟨a, b⟩
    by_cases hak : a = k
    · subst hak
      by_cases hk : a = key <;> simp [mapA, lookA, hk]
    · by_cases hk : a = key
      · subst hk
        simp [mapA, lookA, hak, Ne.symm hak]
      · simp [mapA, lookA, hak, hk, ih]

lemma mapA_forall {β : Type} {P : String × β → Prop} (f : β → β) (k : String) :
    ∀ l : List (String × β), (∀ p ∈ l, P p) → (∀ p ∈ l, P (p.1, f p.2)) →
      ∀ p ∈ mapA f l k, P p := by
  intro l
  induction l with
  | nil => intro _ _ p hp; simp [mapA] at hp
  | cons q rest ih =>
    intro hall hallf p hp
    rcases q with ⟨a, b⟩
    by_cases hak : a = k
    · simp only [mapA, if_pos hak] at hp
      rcases List.mem_cons.mp hp with hp2 | hp2
      · rw [hp2]; exact hallf (a, b) (List.mem_cons_self _ _)
      · exact hall p (List.mem_cons_of_mem _ hp2)
    · simp only [mapA, if_neg hak] at hp
      rcases List.mem_cons.mp hp with hp2 | hp2
      · rw [hp2]; exact hall (a, b) (List.mem_cons_self _ _)
      · exact ih (fun q hq => hall q (List.mem_cons_of_mem _ hq))
          (fun q hq => hallf q (List.mem_cons_of_mem _ hq)) p hp2

lemma mapA_map_eq {β γ : Type} (f : β → β) (g : β → γ) (h : ∀ b, g (f b) = g b)
    (k : String) :
    ∀ l : List (String × β),
      (mapA f l k).map (fun p => g p.2) = l.map (fun p => g p.2) := by
  intro l
  induction l with
  | nil => simp [mapA]
  | cons q rest ih =>
    rcases q with ⟨a, b⟩
    by_cases hak : a = k
    · simp [mapA, hak, h]
    · simp [mapA, hak, ih]

lemma mapA_sum_le {β : Type} (f : β → β) (g : β → Nat)
    (h : ∀ b, g (f b) ≤ g b + 1) (k : String) :
    ∀ l : List (String × β),
      ((mapA f l k).map (fun p => g p.2)).sum ≤ (l.map (fun p => g p.2)).sum + 1 := by
  intro l
  induction l with
  | nil => simp [mapA]
  | cons q rest ih =>
    rcases q with ⟨a, b⟩
    by_cases hak : a = k
    · simp only [mapA, if_pos hak, List.map_cons, List.sum_cons]
      have := h b
      omega
    · simp only [mapA, if_neg hak, List.map_cons, List.sum_cons]
      omega

/-! ### C4: queue scheduler -/

/-- Every queued id resolves in the registry (the queue scheduler never
removes registry entries). -/
def qInv (st : QueueState) : Prop := ∀ id ∈ st.queue, (lookA st.items id).isSome

lemma qInv_init : qInv qInit := by
  intro id h
  simp [qInit] at h

lemma qInv_step (st : QueueState) (op : QOp) (h : qInv st) : qInv (qStep st op) := by
  cases op with
  | add =>
    intro id hid
    simp only [qStep, qAdd, List.mem_append, List.mem_singleton] at hid ⊢
    rw [lookA_setA]
    rcases hid with h1 | h1
    · split
      · simp
      · exact h id h1
    · rw [if_pos h1.symm]
      simp
  | next =>
    simp only [qStep]
    rcases hn : qNext st with _ | pr
    · exact h
    · rcases pr with ⟨st2, it2⟩
      show qInv st2
      simp only [qNext] at hn
      cases hqe : st.queue with
      | nil => rw [hqe] at hn; exact absurd hn (by simp)
      | cons q0 rest =>
        rw [hqe] at hn
        rcases ho : lookA st.items q0 with _ | it
        · simp [ho] at hn
        · simp only [ho] at hn
          have hpair := (Option.some.injEq _ _).mp hn
          have hst2 : ({ st with
              queue := rest,
              items := setA st.items q0
                { it with timesSelected := it.timesSelected + 1 } } : QueueState)
              = st2 := congrArg Prod.fst hpair
          rw [← hst2]
          intro id hid
          have hid2 : id ∈ rest := hid
          have hmem : id ∈ st.queue := by
            rw [hqe]; exact List.mem_cons_of_mem _ hid2
          show (lookA (setA st.items q0
            { it with timesSelected := it.timesSelected + 1 }) id).isSome = true
          rw [lookA_setA]
          split
          · simp
          · exact h id hmem
  | update uid score sig =>
    rcases ho : lookA st.items uid with _ | it
    · have hn : qUpdate st uid score sig = Option.none := by simp [qUpdate, ho]
      intro id hid
      simp only [qStep, hn, Option.getD_none] at hid ⊢
      exact h id hid
    · intro id hid
      simp only [qStep, qUpdate, ho, Option.getD_some, List.mem_append,
        List.mem_singleton] at hid ⊢
      rw [lookA_setA]
      rcases hid with h1 | h1
      · split
        · simp
        · exact h id h1
      · rw [if_pos h1.symm]
        simp

lemma qInv_run (ops : List QOp) : qInv (runQ ops) := by
  suffices hgen : ∀ (l : List QOp) (st : QueueState), qInv st → qInv (l.foldl qStep st) by
    exact hgen ops qInit qInv_init
  intro l
  induction l with
  | nil => intro st h; exact h
  | cons op rest ih =>
    intro st h
    exact ih (qStep st op) (qInv_step st op h)

lemma qNext_isSome_iff (st : QueueState) (h : qInv st) :
    (qNext st).isSome = !(qEmpty st) := by
  cases hqe : st.queue with
  | nil => simp [qNext, hqe, qEmpty]
  | cons q0 rest =>
    have h0 : (lookA st.items q0).isSome :=
      h q0 (by rw [hqe]; exact List.mem_cons_self _ _)
    rcases ho : lookA st.items q0 with _ | it
    · rw [ho] at h0; simp at h0
    · simp [qNext, hqe, ho, qEmpty]

/-! ### C4: heap scheduler -/

lemma popMin_isSome (l : List HEntry) : (popMin l).isSome = !(l.isEmpty) := by
  cases l with
  | nil => rfl
  | cons e es =>
    simp only [popMin, List.isEmpty_cons, Bool.not_false]
    rcases hp : popMin es with _ | pr
    · rfl
    · rcases pr with ⟨m, rest⟩
      show (if entryLE e m = true then some (e, es) else some (m, e :: rest)).isSome
        = true
      split <;> rfl

lemma popMin_mem (l : List HEntry) (pr : HEntry × List HEntry)
    (h : popMin l = some pr) : pr.1 ∈ l ∧ ∀ x ∈ pr.2, x ∈ l := by
  induction l generalizing pr with
  | nil => simp [popMin] at h
  | cons e es ih =>
    simp only [popMin] at h
    rcases hp : popMin es with _ | qr
    · simp only [hp] at h
      have h0 := (Option.some.injEq _ _).mp h
      rw [← h0]
      refine ⟨List.mem_cons_self _ _, ?_⟩
      intro x hx
      simp at hx
    · rcases qr with ⟨m, rest⟩
      simp only [hp] at h
      obtain ⟨hm, hrest⟩ := ih (m, rest) hp
      split at h
      · have h0 := (Option.some.injEq _ _).mp h
        rw [← h0]
        exact ⟨List.mem_cons_self _ _, fun x hx => List.mem_cons_of_mem _ hx⟩
      · have h0 := (Option.some.injEq _ _).mp h
        rw [← h0]
        refine ⟨List.mem_cons_of_mem _ hm, ?_⟩
        intro x hx
        rcases List.mem_cons.mp hx with hx2 | hx2
        · rw [hx2]; exact List.mem_cons_self _ _
        · exact List.mem_cons_of_mem _ (hrest x hx2)

/-- Every heap entry's id resolves in the registry (the heap scheduler
never removes registry entries), and registry keys agree with the stored
`item_id`. -/
def hInv (st : HeapState) : Prop :=
  (∀ e ∈ st.heap, (lookA st.items e.2.2).isSome) ∧
  (∀ (k : String) (it : HItem), lookA st.items k = some it → it.itemId = k)

lemma hInv_init (mode : Bool) (prior : List (String × ℚ)) : hInv (hInit mode prior) := by
  constructor
  · intro e h
    simp [hInit] at h
  · intro k it h
    simp [hInit, lookA] at h

lemma hNextGo_sub (items : List (String × HItem)) :
    ∀ (fuel : Nat) (heap : List HEntry) (it1 : HItem) (rest1 : List HEntry),
      hNextGo items fuel heap = some (it1, rest1) → ∀ x ∈ rest1, x ∈ heap := by
  intro fuel
  induction fuel with
  | zero => intro heap it1 rest1 hh; simp [hNextGo] at hh
  | succ fuel ih =>
    intro heap it1 rest1 hh
    simp only [hNextGo] at hh
    rcases hp : popMin heap with _ | ppr
    · simp [hp] at hh
    · simp only [hp] at hh
      rcases ppr with ⟨e0, r0⟩
      obtain ⟨_, hr0⟩ := popMin_mem heap (e0, r0) hp
      rcases hl : lookA items e0.2.2 with _ | it2
      · simp only [hl] at hh
        exact fun x hx => hr0 x (ih r0 it1 rest1 hh x hx)
      · simp only [hl] at hh
        have hpr := (Option.some.injEq _ _).mp hh
        have hr : r0 = rest1 := congrArg Prod.snd hpr
        intro x hx
        rw [← hr] at hx
        exact hr0 x hx

lemma hInv_step (st : HeapState) (op : HOp) (h : hInv st) : hInv (hStep st op) := by
  obtain ⟨h1, h2⟩ := h
  cases op with
  | add bucket =>
    constructor
    · intro e he
      simp only [hStep, hAdd, pushHeap, List.mem_append, List.mem_singleton] at he ⊢
      rw [lookA_setA]
      rcases he with hm | hm
      · split
        · simp
        · exact h1 e hm
      · rw [hm]
        simp
    · intro k it hk
      simp only [hStep, hAdd, pushHeap] at hk
      rw [lookA_setA] at hk
      split at hk
      · rename_i heq
        have := (Option.some.injEq _ _).mp hk
        rw [← this, ← heq]
      · exact h2 k it hk
  | next =>
    simp only [hStep]
    rcases hn : hNext st with _ | pr
    · exact ⟨h1, h2⟩
    · rcases pr with ⟨st2, it2⟩
      show hInv st2
      unfold hNext at hn
      rcases hg : hNextGo st.items st.heap.length st.heap with _ | gr
      · simp [hg] at hn
      · simp only [hg] at hn
        rcases gr with ⟨it0, rest⟩
        have hsub : ∀ x ∈ rest, x ∈ st.heap :=
          hNextGo_sub st.items st.heap.length st.heap it0 rest hg
        have hpair := (Option.some.injEq _ _).mp hn
        have hst2 : ({ st with
            heap := rest,
            items := setA st.items it0.itemId
              { it0 with timesSelected := it0.timesSelected + 1 } } : HeapState)
            = st2 := congrArg Prod.fst hpair
        rw [← hst2]
        constructor
        · intro e he
          have he2 : e ∈ rest := he
          show (lookA (setA st.items it0.itemId
            { it0 with timesSelected := it0.timesSelected + 1 }) e.2.2).isSome = true
          rw [lookA_setA]
          split
          · simp
          · exact h1 e (hsub e he2)
        · intro k it hk
          have hk2 : lookA (setA st.items it0.itemId
              { it0 with timesSelected := it0.timesSelected + 1 }) k = some it := hk
          rw [lookA_setA] at hk2
          split at hk2
          · rename_i heq
            have := (Option.some.injEq _ _).mp hk2
            rw [← this, ← heq]
          · exact h2 k it hk2
  | update uid score sig =>
    rcases ho : lookA st.items uid with _ | it
    · have hn : hUpdate st uid score sig = Option.none := by simp [hUpdate, ho]
      simp only [hStep, hn, Option.getD_none]
      exact ⟨h1, h2⟩
    · have hid : it.itemId = uid := h2 uid it ho
      constructor
      · intro e he
        simp only [hStep, hUpdate, ho, Option.getD_some, pushHeap, List.mem_append,
          List.mem_singleton] at he ⊢
        rw [lookA_setA]
        rcases he with hm | hm
        · split
          · simp
          · exact h1 e hm
        · rw [hm]
          simp [hid]
      · intro k itm hk
        simp only [hStep, hUpdate, ho, Option.getD_some, pushHeap] at hk
        rw [lookA_setA] at hk
        split at hk
        · rename_i heq
          have := (Option.some.injEq _ _).mp hk
          rw [← this, ← heq]
          exact hid
        · exact h2 k itm hk

lemma hInv_run (mode : Bool) (prior : List (String × ℚ)) (ops : List HOp) :
    hInv (runH mode prior ops) := by
  suffices hgen : ∀ (l : List HOp) (st : HeapState), hInv st → hInv (l.foldl hStep st) by
    exact hgen ops (hInit mode prior) (hInv_init mode prior)
  intro l
  induction l with
  | nil => intro st h; exact h
  | cons op rest ih =>
    intro st h
    exact ih (hStep st op) (hInv_step st op h)

lemma hNext_isSome_iff (st : HeapState) (h : hInv st) :
    (hNext st).isSome = !(hEmpty st) := by
  cases hqe : st.heap with
  | nil => simp [hNext, hNextGo, hqe, hEmpty]
  | cons e es =>
    have hpm : (popMin (e :: es)).isSome = true := by rw [popMin_isSome]; simp
    rcases hp : popMin (e :: es) with _ | pr
    · rw [hp] at hpm; simp at hpm
    · rcases pr with ⟨m, rest⟩
      have hm : m ∈ st.heap := by
        rw [hqe]; exact (popMin_mem _ _ hp).1
      have h0 : (lookA st.items m.2.2).isSome := h.1 m hm
      rcases ho : lookA st.items m.2.2 with _ | it
      · rw [ho] at h0; simp at h0
      · simp [hNext, hNextGo, hqe, hp, ho, hEmpty]

/-! ### C4: UCB-tree scheduler -/

lemma sum_pos_exists {α : Type} (f : α → Nat) :
    ∀ l : List α, 0 < (l.map f).sum → ∃ x ∈ l, 0 < f x := by
  intro l
  induction l with
  | nil => intro h; simp at h
  | cons a rest ih =>
    intro h
    simp only [List.map_cons, List.sum_cons] at h
    by_cases ha : 0 < f a
    · exact ⟨a, List.mem_cons_self _ _, ha⟩
    · have : 0 < (rest.map f).sum := by omega
      obtain ⟨x, hx, hfx⟩ := ih this
      exact ⟨x, List.mem_cons_of_mem _ hx, hfx⟩

lemma selectGo_isSome {α : Type} (score : α → Option ℚ) :
    ∀ (cs : List (String × α)) (b : String × α) (s : Option ℚ),
      (selectGo score cs (some b) (some s)).isSome := by
  intro cs
  induction cs with
  | nil => intro b s; rfl
  | cons c rest ih =>
    intro b s
    simp only [selectGo]
    split
    · exact ih c (score c.2)
    · exact ih b s

lemma selectGo_mem {α : Type} (score : α → Option ℚ) :
    ∀ (cs : List (String × α)) (best : Option (String × α)) (bs : Option (Option ℚ))
      (r : String × α), selectGo score cs best bs = some r → r ∈ cs ∨ best = some r := by
  intro cs
  induction cs with
  | nil =>
    intro best bs r h
    exact Or.inr h
  | cons c rest ih =>
    intro best bs r h
    simp only [selectGo] at h
    split at h
    · rcases ih (some c) (some (score c.2)) r h with h1 | h1
      · exact Or.inl (List.mem_cons_of_mem _ h1)
      · have : c = r := (Option.some.injEq _ _).mp h1
        exact Or.inl (this ▸ List.mem_cons_self _ _)
    · rcases ih best bs r h with h1 | h1
      · exact Or.inl (List.mem_cons_of_mem _ h1)
      · exact Or.inr h1

lemma scoreGT_bot (s : Option ℚ) : scoreGT s Option.none = true := by
  cases s <;> rfl

lemma selectChild_isSome {α : Type} (score : α → Option ℚ) (avail : α → Nat)
    (children : List (String × α)) (hx : ∃ c ∈ children, 0 < avail c.2) :
    (selectChild score avail children).isSome := by
  unfold selectChild
  rcases hx with ⟨c, hc, hpos⟩
  have hmem : c ∈ children.filter (fun c => decide (0 < avail c.2)) :=
    List.mem_filter.mpr ⟨hc, by simpa⟩
  rcases hfe : children.filter (fun c => decide (0 < avail c.2)) with _ | ⟨c0, cs⟩
  · rw [hfe] at hmem; simp at hmem
  · rw [hfe]
    rw [if_neg (by simp)]
    simp only [selectGo, scoreGT_bot, if_true]
    exact selectGo_isSome score cs c0 (score c0.2)

lemma selectChild_avail {α : Type} (score : α → Option ℚ) (avail : α → Nat)
    (children : List (String × α)) (r : String × α)
    (h : selectChild score avail children = some r) : 0 < avail r.2 := by
  unfold selectChild at h
  split at h
  · exact absurd h (by simp)
  · rcases selectGo_mem score _ _ _ r h with hm | hm
    · have := (List.mem_filter.mp hm).2
      simpa using this
    · exact absurd hm (by simp)

lemma availCov_def (c : CovNode) : availCov c = (c.leaves.map (fun p => availLeaf p.2)).sum := rfl

lemma uNext_isSome_iff (sq : Nat → Nat → ℚ) (st : UCBState) :
    (uNext sq st).isSome = !(uEmpty st) := by
  by_cases he : uEmpty st = true
  · simp [uNext, he]
  · rw [Bool.not_eq_true] at he
    have h0 : (availRoot st == 0) = false := he
    have hne : availRoot st ≠ 0 := by
      intro hz
      rw [hz] at h0
      simp at h0
    have hpos : 0 < (st.tree.map (fun p => availCov p.2)).sum :=
      Nat.pos_of_ne_zero hne
    obtain ⟨pc, hmemc, hposc⟩ := sum_pos_exists (fun p => availCov p.2) st.tree hpos
    have h1 := selectChild_isSome
      (fun c => scoreOf sq st.ucbC st.rootStats.nSelected c.stats) availCov st.tree
      ⟨pc, hmemc, hposc⟩
    rcases hs1 : selectChild (fun c => scoreOf sq st.ucbC st.rootStats.nSelected c.stats)
        availCov st.tree with _ | r1
    · rw [hs1] at h1; simp at h1
    · rcases r1 with ⟨covKey, cov⟩
      have hcovpos : 0 < availCov cov := selectChild_avail _ _ _ _ hs1
      rw [availCov_def] at hcovpos
      obtain ⟨pl, hmeml, hposl⟩ := sum_pos_exists (fun p => availLeaf p.2) cov.leaves hcovpos
      have h2 := selectChild_isSome
        (fun l => scoreOf sq st.ucbC cov.stats.nSelected l.stats) availLeaf cov.leaves
        ⟨pl, hmeml, hposl⟩
      rcases hs2 : selectChild (fun l => scoreOf sq st.ucbC cov.stats.nSelected l.stats)
          availLeaf cov.leaves with _ | r2
      · rw [hs2] at h2; simp at h2
      · rcases r2 with ⟨bugKey, leaf⟩
        have hleafpos : 0 < availLeaf leaf := selectChild_avail _ _ _ _ hs2
        have hlen : (sortSeeds leaf.seeds).length = leaf.seeds.length :=
          (Corpus.sortBy_perm leafLt leaf.seeds).length_eq
        rcases hss : sortSeeds leaf.seeds with _ | ⟨i0, rest⟩
        · rw [hss] at hlen
          unfold availLeaf at hleafpos
          simp at hlen
          omega
        · simp [uNext, he, hs1, hs2, hss]

/-- C4: for every scheduler variant, `next()` succeeds exactly when
`empty()` is false: for queue and heap along every trace of
`add`/`next`/`update` calls from a fresh scheduler (the registry
invariants hold there), and for the UCB tree in every state at all. -/
theorem claim_C4_theorem :
    (∀ ops : List QOp, (qNext (runQ ops)).isSome = !(qEmpty (runQ ops))) ∧
    (∀ (mode : Bool) (prior : List (String × ℚ)) (ops : List HOp),
      (hNext (runH mode prior ops)).isSome = !(hEmpty (runH mode prior ops))) ∧
    (∀ (sq : Nat → Nat → ℚ) (st : UCBState),
      (uNext sq st).isSome = !(uEmpty st)) :=
  ⟨fun ops => qNext_isSome_iff (runQ ops) (qInv_run ops),
   fun mode prior ops => hNext_isSome_iff (runH mode prior ops) (hInv_run mode prior ops),
   fun sq st => uNext_isSome_iff sq st⟩

/-! ### C8: UCB statistics invariant -/

/-- Arithmetic mean (0 on the empty list, matching the initial
`q_avg_reward = 0.0`). -/
def qMean (l : List ℚ) : ℚ := if l.length = 0 then 0 else l.sum / (l.length : ℚ)

/-- A node's statistics agree with its ghost reward trail: `n_selected`
counts the rewards, `q_avg_reward` is exactly their mean. -/
def nodeOK (n : UNode) : Prop :=
  n.nSelected = n.rewards.length ∧ n.qAvg = qMean n.rewards

def covSum (tree : List (String × CovNode)) : Nat :=
  (tree.map (fun p => p.2.stats.nSelected)).sum

def leafSum (c : CovNode) : Nat :=
  (c.leaves.map (fun q => q.2.stats.nSelected)).sum

/-- The C8 invariant over the whole tree. -/
def treeOK (root : UNode) (tree : List (String × CovNode)) : Prop :=
  nodeOK root ∧
  (∀ p ∈ tree, nodeOK p.2.stats ∧ ∀ q ∈ p.2.leaves, nodeOK q.2.stats) ∧
  covSum tree ≤ root.nSelected ∧
  (∀ p ∈ tree, leafSum p.2 ≤ p.2.stats.nSelected)

lemma nodeOK_default : nodeOK ({} : UNode) := by
  constructor
  · rfl
  · simp [qMean]

lemma updateStats_nodeOK (n : UNode) (r : ℚ) (h : nodeOK n) :
    nodeOK (updateStats n r) := by
  obtain ⟨h1, h2⟩ := h
  constructor
  · simp [updateStats, h1]
  · rcases hl : n.rewards.length with _ | k
    · have hnil : n.rewards = [] := List.length_eq_zero.mp hl
      have hq : n.qAvg = 0 := by rw [h2, hnil]; simp [qMean]
      simp [updateStats, qMean, hnil, h1, hq]
    · have hq : n.qAvg = n.rewards.sum / (n.rewards.length : ℚ) := by
        rw [h2]; unfold qMean; rw [if_neg (by omega)]
      have hlen0 : ((n.rewards.length : ℚ)) ≠ 0 := by
        rw [hl]; push_cast; positivity
      have hlen1 : (((n.rewards.length + 1 : Nat)) : ℚ) ≠ 0 := by push_cast; positivity
      simp only [updateStats, qMean, List.length_append, List.length_singleton,
        List.sum_append, List.sum_singleton]
      rw [if_neg (by omega), h1, hq]
      field_simp
      ring

lemma treeOK_ensure (root : UNode) (tree : List (String × CovNode))
    (ck bk : String) (h : treeOK root tree) : treeOK root (ensureTree tree ck bk) := by
  obtain ⟨hr, hall, hsum, hleaf⟩ := h
  rcases hlc : lookA tree ck with _ | cov
  · have he : ensureTree tree ck bk
        = tree ++ [(ck, ({ leaves := [(bk, {})] } : CovNode))] := by
      simp [ensureTree, hlc]
    rw [he]
    refine ⟨hr, ?_, ?_, ?_⟩
    · intro p hp
      rcases List.mem_append.mp hp with hp2 | hp2
      · exact hall p hp2
      · simp only [List.mem_singleton] at hp2
        rw [hp2]
        refine ⟨nodeOK_default, ?_⟩
        intro q hq
        simp only [List.mem_singleton] at hq
        rw [hq]
        exact nodeOK_default
    · unfold covSum at hsum ⊢
      simp only [List.map_append, List.sum_append, List.map_cons, List.map_nil,
        List.sum_cons, List.sum_nil]
      have : (({} : UNode)).nSelected = 0 := rfl
      omega
    · intro p hp
      rcases List.mem_append.mp hp with hp2 | hp2
      · exact hleaf p hp2
      · simp only [List.mem_singleton] at hp2
        rw [hp2]
        unfold leafSum
        simp
  · rcases hlb : lookA cov.leaves bk with _ | lf
    · have he : ensureTree tree ck bk
          = mapA (fun c => { c with leaves := c.leaves ++ [(bk, {})] }) tree ck := by
        simp [ensureTree, hlc, hlb]
      rw [he]
      refine ⟨hr, ?_, ?_, ?_⟩
      · refine mapA_forall _ ck tree hall ?_
        intro p hp
        obtain ⟨hp1, hp2⟩ := hall p hp
        refine ⟨hp1, ?_⟩
        intro q hq
        rcases List.mem_append.mp hq with hq2 | hq2
        · exact hp2 q hq2
        · simp only [List.mem_singleton] at hq2
          rw [hq2]
          exact nodeOK_default
      · unfold covSum at hsum ⊢
        rw [mapA_map_eq (fun (c : CovNode) => { c with leaves := c.leaves ++ [(bk, {})] })
          (fun (c : CovNode) => c.stats.nSelected) (fun b => rfl)]
        exact hsum
      · refine mapA_forall _ ck tree hleaf ?_
        intro p hp
        have hle := hleaf p hp
        show leafSum ({ p.2 with leaves := p.2.leaves ++ [(bk, {})] }) ≤
          ({ p.2 with leaves := p.2.leaves ++ [(bk, {})] } : CovNode).stats.nSelected
        unfold leafSum at hle ⊢
        simp only [List.map_append, List.sum_append, List.map_cons, List.map_nil,
          List.sum_cons, List.sum_nil]
        have h0 : (({} : ULeaf)).stats.nSelected = 0 := rfl
        omega
    · have he : ensureTree tree ck bk = tree := by simp [ensureTree, hlc, hlb]
      rw [he]
      exact ⟨hr, hall, hsum, hleaf⟩

lemma treeOK_setLeaf (root : UNode) (tree : List (String × CovNode))
    (ck bk : String) (seeds : List UItem) (h : treeOK root tree) :
    treeOK root (setLeaf tree ck bk seeds) := by
  obtain ⟨hr, hall, hsum, hleaf⟩ := h
  unfold setLeaf
  refine ⟨hr, ?_, ?_, ?_⟩
  · refine mapA_forall _ ck tree hall ?_
    intro p hp
    obtain ⟨hp1, hp2⟩ := hall p hp
    refine ⟨hp1, ?_⟩
    show ∀ q ∈ mapA (fun l => { l with seeds := seeds }) p.2.leaves bk,
      nodeOK q.2.stats
    refine mapA_forall _ bk p.2.leaves hp2 ?_
    intro q hq
    exact hp2 q hq
  · unfold covSum at hsum ⊢
    rw [mapA_map_eq
      (fun (c : CovNode) =>
        { c with leaves := mapA (fun (l : ULeaf) => { l with seeds := seeds }) c.leaves bk })
      (fun (c : CovNode) => c.stats.nSelected) (fun b => rfl)]
    exact hsum
  · refine mapA_forall _ ck tree hleaf ?_
    intro p hp
    have hle := hleaf p hp
    show leafSum ({ p.2 with
      leaves := mapA (fun l => { l with seeds := seeds }) p.2.leaves bk }) ≤
      ({ p.2 with
        leaves := mapA (fun l => { l with seeds := seeds }) p.2.leaves bk } : CovNode).stats.nSelected
    unfold leafSum at hle ⊢
    rw [mapA_map_eq (fun (l : ULeaf) => { l with seeds := seeds })
      (fun (l : ULeaf) => l.stats.nSelected) (fun b => rfl)]
    exact hle

lemma treeOK_bump (root : UNode) (tree : List (String × CovNode))
    (ck bk : String) (r : ℚ) (h : treeOK root tree) :
    treeOK (updateStats root r) (bumpStatsTree tree ck bk r) := by
  obtain ⟨hr, hall, hsum, hleaf⟩ := h
  unfold bumpStatsTree
  refine ⟨updateStats_nodeOK root r hr, ?_, ?_, ?_⟩
  · refine mapA_forall _ ck tree hall ?_
    intro p hp
    obtain ⟨hp1, hp2⟩ := hall p hp
    refine ⟨updateStats_nodeOK _ r hp1, ?_⟩
    show ∀ q ∈ mapA (fun l => { l with stats := updateStats l.stats r }) p.2.leaves bk,
      nodeOK q.2.stats
    refine mapA_forall _ bk p.2.leaves hp2 ?_
    intro q hq
    exact updateStats_nodeOK _ r (hp2 q hq)
  · have hle := mapA_sum_le
      (fun (c : CovNode) => { c with
        stats := updateStats c.stats r,
        leaves := mapA (fun (l : ULeaf) =>
          { l with stats := updateStats l.stats r }) c.leaves bk })
      (fun (c : CovNode) => c.stats.nSelected) (fun b => by simp [updateStats]) ck tree
    unfold covSum at hsum ⊢
    have hroot : (updateStats root r).nSelected = root.nSelected + 1 := rfl
    omega
  · refine mapA_forall _ ck tree hleaf ?_
    intro p hp
    have hle := hleaf p hp
    have hin := mapA_sum_le (fun (l : ULeaf) => { l with stats := updateStats l.stats r })
      (fun (l : ULeaf) => l.stats.nSelected) (fun b => by simp [updateStats]) bk p.2.leaves
    have hfin : ((mapA (fun (l : ULeaf) => { l with stats := updateStats l.stats r })
        p.2.leaves bk).map (fun q => q.2.stats.nSelected)).sum
        ≤ (updateStats p.2.stats r).nSelected := by
      have hst : (updateStats p.2.stats r).nSelected = p.2.stats.nSelected + 1 := rfl
      unfold leafSum at hle
      omega
    exact hfin

/-- The invariant, packaged on a scheduler state. -/
def uTreeOK (st : UCBState) : Prop := treeOK st.rootStats st.tree

lemma uTreeOK_init (c : ℚ) (m : Nat) : uTreeOK (uInit c m) := by
  refine ⟨nodeOK_default, ?_, ?_, ?_⟩
  · intro p hp; simp [uInit] at hp
  · show covSum [] ≤ (({} : UNode)).nSelected
    simp [covSum]
  · intro p hp; simp [uInit] at hp

lemma treeOK_uDoInsert (st : UCBState) (ck bk : String) (it : UItem)
    (h : treeOK st.rootStats st.tree) :
    uTreeOK (uDoInsert st ck bk it) := by
  show treeOK st.rootStats (setLeaf (ensureTree st.tree ck bk) ck bk _)
  exact treeOK_setLeaf _ _ _ _ _ (treeOK_ensure _ _ _ _ h)

lemma uTreeOK_step (sh : PyVal → String) (sq : Nat → Nat → ℚ) (st : UCBState)
    (op : UOp) (h : uTreeOK st) : uTreeOK (uStep sh sq st op) := by
  cases op with
  | add t s =>
    exact treeOK_uDoInsert _ _ _ _ h
  | next =>
    simp only [uStep]
    rcases hn : uNext sq st with _ | pr
    · exact h
    · rcases pr with ⟨st2, it2⟩
      show uTreeOK st2
      unfold uNext at hn
      by_cases he : uEmpty st = true
      · simp [he] at hn
      · rw [Bool.not_eq_true] at he
        simp only [he, Bool.false_eq_true, if_false] at hn
        rcases hs1 : selectChild
            (fun c => scoreOf sq st.ucbC st.rootStats.nSelected c.stats)
            availCov st.tree with _ | r1
        · simp [hs1] at hn
        · simp only [hs1] at hn
          rcases r1 with ⟨covKey, cov⟩
          rcases hs2 : selectChild
              (fun l => scoreOf sq st.ucbC cov.stats.nSelected l.stats)
              availLeaf cov.leaves with _ | r2
          · simp [hs2] at hn
          · simp only [hs2] at hn
            rcases r2 with ⟨bugKey, leaf⟩
            rcases hss : sortSeeds leaf.seeds with _ | ⟨i0, rest⟩
            · simp [hss] at hn
            · simp only [hss] at hn
              have hpair := (Option.some.injEq _ _).mp hn
              have hst2 : ({ st with
                  tree := setLeaf st.tree covKey bugKey rest,
                  items := setA st.items i0.itemId
                    { i0 with
                      timesSelected := i0.timesSelected + 1,
                      lastPath := some (covKey, bugKey) } } : UCBState)
                  = st2 := congrArg Prod.fst hpair
              rw [← hst2]
              show treeOK st.rootStats (setLeaf st.tree covKey bugKey rest)
              exact treeOK_setLeaf _ _ _ _ _ h
  | update id score sig =>
    simp only [uStep]
    rcases ho : lookA st.items id with _ | stored
    · simp only [uUpdate, ho]
      exact h
    · simp only [uUpdate, ho]
      rcases hp : stored.lastPath with _ | pk
      · simp only [hp]
        exact h
      · simp only [hp]
        exact treeOK_uDoInsert _ _ _ _
          (treeOK_bump st.rootStats st.tree pk.1 pk.2 _ h)

lemma uTreeOK_run (sh : PyVal → String) (sq : Nat → Nat → ℚ) (c : ℚ) (m : Nat)
    (ops : List UOp) : uTreeOK (runU sh sq c m ops) := by
  suffices hgen : ∀ (l : List UOp) (st : UCBState), uTreeOK st →
      uTreeOK (l.foldl (uStep sh sq) st) by
    exact hgen ops (uInit c m) (uTreeOK_init c m)
  intro l
  induction l with
  | nil => intro st h; exact h
  | cons op rest ih =>
    intro st h
    exact ih (uStep sh sq st op) (uTreeOK_step sh sq st op h)

/-- C8: after every trace of add/next/update calls (any hash and UCB
score oracles, any configuration), every tree node has
`n_selected ≥ Σ children.n_selected` and `q_avg_reward` exactly equal
(so a fortiori within `1e-9`) to the arithmetic mean of the rewards
back-propagated through it. -/
theorem claim_C8_theorem (sh : Score.PyVal → String) (sq : Nat → Nat → ℚ) (c : ℚ)
    (m : Nat) (ops : List UOp) :
    nodeOK (runU sh sq c m ops).rootStats ∧
    (∀ p ∈ (runU sh sq c m ops).tree, nodeOK p.2.stats ∧
      ∀ q ∈ p.2.leaves, nodeOK q.2.stats) ∧
    covSum (runU sh sq c m ops).tree ≤ (runU sh sq c m ops).rootStats.nSelected ∧
    (∀ p ∈ (runU sh sq c m ops).tree, leafSum p.2 ≤ p.2.stats.nSelected) :=
  uTreeOK_run sh sq c m ops

/-! ### C3: where `update` re-inserts -/

lemma lookA_append_none {β : Type} (l1 l2 : List (String × β)) (k : String)
    (h : lookA l1 k = Option.none) : lookA (l1 ++ l2) k = lookA l2 k := by
  induction l1 with
  | nil => simp
  | cons p rest ih =>
    rcases p with ⟨a, b⟩
    simp only [lookA] at h
    by_cases hak : a = k
    · rw [if_pos hak] at h; exact absurd h (by simp)
    · rw [if_neg hak] at h
      simp only [List.cons_append, lookA, if_neg hak]
      exact ih h

lemma leafSeedsAt_ensure (tree : List (String × CovNode)) (ck bk : String) :
    leafSeedsAt (ensureTree tree ck bk) ck bk = leafSeedsAt tree ck bk := by
  rcases hlc : lookA tree ck with _ | cov
  · have he : ensureTree tree ck bk
        = tree ++ [(ck, ({ leaves := [(bk, {})] } : CovNode))] := by
      simp [ensureTree, hlc]
    have h2 : lookA (tree ++ [(ck, ({ leaves := [(bk, {})] } : CovNode))]) ck
        = some { leaves := [(bk, {})] } := by
      rw [lookA_append_none _ _ _ hlc]
      simp [lookA]
    rw [he]
    simp [leafSeedsAt, h2, hlc, lookA]
  · rcases hlb : lookA cov.leaves bk with _ | lf
    · have he : ensureTree tree ck bk
          = mapA (fun c => { c with leaves := c.leaves ++ [(bk, {})] }) tree ck := by
        simp [ensureTree, hlc, hlb]
      have h2 : lookA (cov.leaves ++ [(bk, ({} : ULeaf))]) bk = some {} := by
        rw [lookA_append_none _ _ _ hlb]
        simp [lookA]
      rw [he]
      simp [leafSeedsAt, lookA_mapA, hlc, hlb, h2]
    · have he : ensureTree tree ck bk = tree := by simp [ensureTree, hlc, hlb]
      rw [he]

lemma ensureTree_lookup (tree : List (String × CovNode)) (ck bk : String) :
    ∃ cov, lookA (ensureTree tree ck bk) ck = some cov ∧
      (lookA cov.leaves bk).isSome := by
  rcases hlc : lookA tree ck with _ | cov
  · refine ⟨{ leaves := [(bk, {})] }, ?_, ?_⟩
    · have he : ensureTree tree ck bk
          = tree ++ [(ck, ({ leaves := [(bk, {})] } : CovNode))] := by
        simp [ensureTree, hlc]
      rw [he, lookA_append_none _ _ _ hlc]
      simp [lookA]
    · simp [lookA]
  · rcases hlb : lookA cov.leaves bk with _ | lf
    · refine ⟨{ cov with leaves := cov.leaves ++ [(bk, {})] }, ?_, ?_⟩
      · have he : ensureTree tree ck bk
            = mapA (fun c => { c with leaves := c.leaves ++ [(bk, {})] }) tree ck := by
          simp [ensureTree, hlc, hlb]
        rw [he, lookA_mapA]
        simp [hlc]
      · have h2 : lookA (cov.leaves ++ [(bk, ({} : ULeaf))]) bk = some {} := by
          rw [lookA_append_none _ _ _ hlb]
          simp [lookA]
        simp [h2]
    · refine ⟨cov, ?_, ?_⟩
      · simp [ensureTree, hlc, hlb]
      · rw [hlb]; simp

lemma leafSeedsAt_setLeaf (tree : List (String × CovNode)) (ck bk : String)
    (seeds : List UItem) (cov : CovNode) (hlc : lookA tree ck = some cov)
    (hlb : (lookA cov.leaves bk).isSome) :
    leafSeedsAt (setLeaf tree ck bk seeds) ck bk = seeds := by
  rcases ho : lookA cov.leaves bk with _ | lf
  · rw [ho] at hlb; simp at hlb
  · simp [setLeaf, leafSeedsAt, lookA_mapA, hlc, ho]

lemma leafSeedsAt_bump (tree : List (String × CovNode)) (ck bk : String) (r : ℚ)
    (cov2 bug2 : String) :
    leafSeedsAt (bumpStatsTree tree ck bk r) cov2 bug2
      = leafSeedsAt tree cov2 bug2 := by
  by_cases hc : ck = cov2
  · subst hc
    rcases ho : lookA tree ck with _ | cov
    · simp [leafSeedsAt, bumpStatsTree, lookA_mapA, ho]
    · by_cases hb : bk = bug2
      · subst hb
        rcases hl : lookA cov.leaves bk with _ | lf
        · simp [leafSeedsAt, bumpStatsTree, lookA_mapA, ho, hl]
        · simp [leafSeedsAt, bumpStatsTree, lookA_mapA, ho, hl]
      · rcases hl : lookA cov.leaves bug2 with _ | lf
        · simp [leafSeedsAt, bumpStatsTree, lookA_mapA, ho, hb, hl]
        · simp [leafSeedsAt, bumpStatsTree, lookA_mapA, ho, hb, hl]
  · simp [leafSeedsAt, bumpStatsTree, lookA_mapA, hc]

lemma mem_sortSeeds (l : List UItem) (x : UItem) (h : x ∈ l) : x ∈ sortSeeds l :=
  ((Corpus.sortBy_perm leafLt l).mem_iff).mpr h

lemma sortSeeds_length (l : List UItem) : (sortSeeds l).length = l.length :=
  (Corpus.sortBy_perm leafLt l).length_eq

/-- A concrete trace for C3: an item added under flat signals
`\x7b"coverage_key": "A"\x7d`, drawn once, then updated with new flat
signals `\x7b"coverage_key": "B"\x7d`. -/
def cexOps : List UOp :=
  [UOp.add "s" (some (.dict [("coverage_key", Score.PyVal.str "A")])),
   UOp.next,
   UOp.update "u000001" 1 (some (.dict [("coverage_key", Score.PyVal.str "B")]))]

/-- C3 counterexample: the new signals derive coverage bucket `"B"`
(and bug bucket `"NO_BUG"`), yet after `update` the item sits in the old
leaf `("A", "NO_BUG")` from which it was drawn, and no `"B"` coverage
bucket exists in the tree at all — `update` re-inserts into
`_ucb_last_leaf`/`_ucb_home`, not into the leaf derived from the newly
passed signals. -/
theorem claim_C3_counterexample :
    coverageBucketKey (fun _ => "")
      (normalizeSignals (some (.dict [("coverage_key", Score.PyVal.str "B")]))) = "B" ∧
    bugBucketKey (fun _ => "")
      (normalizeSignals (some (.dict [("coverage_key", Score.PyVal.str "B")])))
      = "NO_BUG" ∧
    leafIds (runU (fun _ => "") (fun _ _ => 0) 1 8 cexOps) "A" "NO_BUG"
      = ["u000001"] ∧
    (lookA (runU (fun _ => "") (fun _ _ => 0) 1 8 cexOps).tree "B").isSome = false :=
  ⟨rfl, rfl, rfl, rfl⟩

/-- C3 (amended): `update` re-inserts the item into the leaf recorded
when the item was last drawn (`_ucb_last_leaf`, falling back to
`_ucb_home`), for EVERY newly passed `signals` value — the new signals
only feed the reward and the `last_signals` metadata, never the
re-insertion destination. -/
theorem claim_C3_theorem (sh : Score.PyVal → String) (st : UCBState) (id : String)
    (score : ℚ) (signals : Option Score.PyVal) (stored : UItem) (p : String × String)
    (h0 : stored.itemId = id)
    (h1 : lookA st.items id = some stored)
    (h2 : stored.lastPath = some p)
    (h3 : (leafSeedsAt st.tree p.1 p.2).length < st.maxSeedsPerLeaf) :
    (uUpdate sh st id score signals).2 = true ∧
    id ∈ (leafSeedsAt (uUpdate sh st id score signals).1.tree p.1 p.2).map
      (fun it => it.itemId) := by
  simp only [uUpdate, h1, h2, reinsertionKeys, Option.getD_some]
  refine ⟨by trivial, ?_⟩
  simp only [uDoInsert]
  obtain ⟨cov, hcov, hcovb⟩ := ensureTree_lookup
    (bumpStatsTree st.tree p.1 p.2 (rewardFromSignals (normalizeSignals signals)))
    p.1 p.2
  rw [leafSeedsAt_setLeaf _ _ _ _ cov hcov hcovb]
  have hold : leafSeedsAt (ensureTree
      (bumpStatsTree st.tree p.1 p.2 (rewardFromSignals (normalizeSignals signals)))
      p.1 p.2) p.1 p.2 = leafSeedsAt st.tree p.1 p.2 := by
    rw [leafSeedsAt_ensure, leafSeedsAt_bump]
  simp only [insertIntoLeaf, hold]
  rw [if_neg (by rw [sortSeeds_length]; simp; omega)]
  refine List.mem_map.mpr ⟨_, mem_sortSeeds _ _ (List.mem_append.mpr
    (Or.inr (List.mem_singleton.mpr rfl))), h0⟩

/-- Witness for C3: the amended theorem applied to the state after one
`add` (no signals) and one `next` — the update with fresh signals lands
the item back in its recorded `("NO_COVERAGE", "NO_BUG")` leaf. -/
theorem claim_C3_witness :
    (uUpdate (fun _ => "")
      (runU (fun _ => "") (fun _ _ => 0) 1 8 [UOp.add "s" Option.none, UOp.next])
      "u000001" 1 Option.none).2 = true ∧
    "u000001" ∈ (leafSeedsAt (uUpdate (fun _ => "")
      (runU (fun _ => "") (fun _ _ => 0) 1 8 [UOp.add "s" Option.none, UOp.next])
      "u000001" 1 Option.none).1.tree "NO_COVERAGE" "NO_BUG").map
      (fun it => it.itemId) :=
  claim_C3_theorem (fun _ => "")
    (runU (fun _ => "") (fun _ _ => 0) 1 8 [UOp.add "s" Option.none, UOp.next])
    "u000001" 1 Option.none
    { itemId := "u000001", seedText := "s", timesSelected := 1,
      home := ("NO_COVERAGE", "NO_BUG"),
      lastPath := some ("NO_COVERAGE", "NO_BUG") }
    ("NO_COVERAGE", "NO_BUG") rfl rfl rfl (by decide)

end Sched

end Fuzzer
